import Mathlib

/-!
Verification development for the parakeet K-tree (andrewtrotman/parakeet).

Shallow embedding of the concurrent K-tree insert/split engine, the
serialisation routines and the vector operations, translated from
`source/k_tree.cpp`, `source/node.cpp`, `node.h` and `object.h`.

Modelling conventions:
* `float` values are embedded as exact rationals (`ℚ`); SIMD reductions are
  the scalar formula, which the source declares to be the contract up to
  rounding.  Division follows Lean's `q / 0 = 0` convention where the C++
  float code would produce `inf`/`NaN`; every theorem that depends on a
  quotient carries hypotheses keeping the divisor non-zero.
* Pointers to nodes become the inductive value `Node`; a null pointer in the
  `child[]` array is `Option.none`.  Mutation becomes explicit state passing:
  each member function returns the updated object.
* `max_children` (field of every node, propagated unchanged by `new_node`
  from the tree's `parameters` prototype) is the ambient parameter `k`;
  the vector dimensionality is the ambient parameter `d`.
* `std::atomic` reads/writes are modelled as plain reads/writes of the state
  being threaded; a single insert attempt is interpreted sequentially, with
  the effects of concurrent threads captured by the initial state
  (over-full counters, split states, a split counter with `begin ≠ end`).
* The `uint64_t` split counters are modelled as `Nat`: the claims under
  study only compare counters for equality after small increments, so
  wrap-around at `2^64` is never material.
* Undefined behaviour (null-pointer dereference, out-of-bounds array write,
  unbounded spinning) is totalized as `Option.none` ("no defined result").
-/

set_option maxHeartbeats 1000000

namespace KTree

/-! ### Vectors: `class object` (object.h)

An `object` is a fixed-dimension vector of floats.  All operations are
lane-wise over two vectors of the same dimensionality. -/

abbrev Obj := List ℚ

/-- object::distance_squared — squared Euclidean distance `Σ (aᵢ - bᵢ)²`
(the scalar contract of the SIMD reduction). -/
def distance_squared (a b : Obj) : ℚ :=
  (List.zipWith (fun x y => (x - y) * (x - y)) a b).sum

/-- object::zero — all lanes 0 (also the state of a fresh
`object::new_object`, which memsets its storage). -/
def objZero (dim : Nat) : Obj := List.replicate dim 0

/-- object::operator+= — lane-wise add. -/
def objAdd (a b : Obj) : Obj := List.zipWith (· + ·) a b

/-- object::operator/= — lane-wise divide by a scalar. -/
def objDiv (a : Obj) (c : ℚ) : Obj := a.map (· / c)

/-- object::fused_multiply_add — `this += operand * constant`. -/
def fused_multiply_add (a b : Obj) (c : ℚ) : Obj :=
  List.zipWith (fun x y => x + y * c) a b

/-- object::fused_subtract_divide — `this += (operand - this) / constant`. -/
def fused_subtract_divide (a b : Obj) (c : ℚ) : Obj :=
  List.zipWith (fun x y => x + (y - x) / c) a b

/-! ### Nodes: `class node` (node.h / node.cpp) -/

/-- node::split_state — the per-node one-shot split latch. -/
inductive SplitState where
  | state_unsplit
  | state_split
deriving DecidableEq

/-- node::result — outcome of an insertion step. -/
inductive Result where
  | result_success
  | result_retry
  | result_split
deriving DecidableEq

/-- A node of the K-tree.  A leaf (`child == nullptr`) carries only its
centroid (its `children` counter is 0 and `leaves_below_this_point` is 1,
both fixed by the `node()` constructor and never changed for leaves).
An internal node carries the split latch, the `children` counter, the
`child[0 .. max_children]` array (`none` = null slot), the centroid and
`leaves_below_this_point`. -/
inductive Node where
  | leaf (centroid : Obj)
  | internal (state : SplitState) (children : Nat) (child : List (Option Node))
      (centroid : Obj) (leaves_below : Nat)

/-- node::isleaf — whether `child == nullptr`. -/
def Node.isleaf : Node → Bool
  | .leaf _ => true
  | .internal _ _ _ _ _ => false

/-- the `centroid` field. -/
def Node.centroid : Node → Obj
  | .leaf c => c
  | .internal _ _ _ c _ => c

/-- the `leaves_below_this_point` field (1 for a leaf, per the constructor). -/
def Node.leavesBelow : Node → Nat
  | .leaf _ => 1
  | .internal _ _ _ _ lb => lb

/-- the `children` field (0 for a leaf, per the constructor). -/
def Node.childrenCount : Node → Nat
  | .leaf _ => 0
  | .internal _ cnt _ _ _ => cnt

/-- node::number_of_children — `min(children, max_children)`: the counter
clamped to the capacity, robust to a transiently over-full node. -/
def number_of_children (k : Nat) (n : Node) : Nat :=
  min n.childrenCount k

/-- the scan of node::closest over `which = 1 .. child_count-1`: strict `<`
keeps the lowest index on ties; a null slot (`none`) is skipped. -/
def closestLoop (what : Obj) (child : List (Option Node)) (count : Nat) :
    Nat → Nat → ℚ → Nat × ℚ
  | which, best, mind =>
    if which < count then
      match child.getD which none with
      | some c =>
        let dist := distance_squared what c.centroid
        if dist < mind then closestLoop what child count (which + 1) which dist
        else closestLoop what child count (which + 1) best mind
      | none => closestLoop what child count (which + 1) best mind
    else (best, mind)
termination_by which _ _ => count - which
decreasing_by all_goals omega

/-- node::closest — index of the child closest to `what`.  The code
dereferences `child[0]` unconditionally (before the loop), so a null
slot 0 — or a leaf, whose `child` array is null — is undefined behaviour,
totalized as `none`. -/
def closest (k : Nat) (what : Obj) : Node → Option Nat
  | .leaf _ => none
  | .internal _ cnt child _ _ =>
    match child.getD 0 none with
    | some c0 =>
      some (closestLoop what child (min cnt k) 1 0
        (distance_squared what c0.centroid)).1
    | none => none

/-! ### Serialisation: node::text_render and node::deserialise

The wire format is whitespace-separated text fields, pre-order DFS.  The
stream is embedded as the list of lexed fields: a field is either a natural
number (`children` / `leaves_below` counters), a numeral (a vector
coordinate, exact in this embedding), or a malformed field (`junk`).
`std::istream` extraction semantics (C++11): once the fail state is set, or
when the next field cannot be parsed as the requested type, the extraction
stores 0 and sets (or keeps) the fail state. -/

inductive Token where
  | nat (n : Nat)
  | num (q : ℚ)
  | junk (s : String)
deriving DecidableEq

structure TokStream where
  tokens : List Token
  failed : Bool
deriving DecidableEq

/-- `stream >> (size_t)` — a natural-number extraction. -/
def readNat (s : TokStream) : Nat × TokStream :=
  if s.failed then (0, s)
  else
    match s.tokens with
    | .nat n :: rest => (n, ⟨rest, false⟩)
    | _ => (0, ⟨s.tokens, true⟩)

/-- `stream >> (float)` — a numeral extraction (an integer field also parses
as a float, as in C++). -/
def readQ (s : TokStream) : ℚ × TokStream :=
  if s.failed then (0, s)
  else
    match s.tokens with
    | .num q :: rest => (q, ⟨rest, false⟩)
    | .nat n :: rest => ((n : ℚ), ⟨rest, false⟩)
    | _ => (0, ⟨s.tokens, true⟩)

/-- the `for dimension in 0..dims: stream >> vector[dimension]` loop of
node::deserialise; the target vector comes zeroed from `new_object`, so a
failed extraction leaves 0 in the lane. -/
def readVec : Nat → TokStream → Obj × TokStream
  | 0, s => ([], s)
  | dim + 1, s =>
    let r := readQ s
    let rest := readVec dim r.2
    (r.1 :: rest.1, rest.2)

mutual

/-- node::text_render — emits `children_count leaves_below v₀ … v_{d-1}`
(the counter clamped to `max_children`), then the children in order up to
the clamped count.  A leaf prints `children = 0` and
`leaves_below_this_point = 1`. -/
def render (k : Nat) : Node → List Token
  | .leaf c => Token.nat 0 :: Token.nat 1 :: c.map Token.num
  | .internal _ cnt child c lb =>
    Token.nat (min cnt k) :: Token.nat lb :: c.map Token.num
      ++ renderSlots k (min cnt k) child

/-- the recursive `child[who].load()->text_render(stream)` loop over
`who = 0 .. child_count-1`.  A null slot in range would be a null
dereference in the code; it renders nothing here. -/
def renderSlots (k : Nat) : Nat → List (Option Node) → List Token
  | 0, _ => []
  | _ + 1, [] => []
  | m + 1, none :: rest => renderSlots k m rest
  | m + 1, some n :: rest => render k n ++ renderSlots k m rest

end

mutual

/-- node::deserialise — reads `children_count` and `leaves_below`; a count
of 0 reconstructs a leaf from `d` coordinates; otherwise an internal node
is built (`new_node` provides `max_children + 1` null slots and a zeroed
centroid, state `state_unsplit`) and `children_count` subtrees are read into
`child[0 ..]`.  The code indexes `child[which_child]` for
`which_child < children_count` without any bound check: a count above
`max_children + 1` writes past the array, totalized as `none`.  The `fuel`
argument bounds the recursion depth; `ktreeDeserialise` supplies more fuel
than the stream could ever consume, and the fuel-exhaustion branch is
proved unreachable in that case. -/
def deserialise (k d : Nat) : Nat → TokStream → Option (Node × TokStream)
  | 0, _ => none
  | fuel + 1, s =>
    let rc := readNat s
    let rl := readNat rc.2
    if rc.1 = 0 then
      let rv := readVec d rl.2
      some (Node.leaf rv.1, rv.2)
    else
      if rc.1 > k + 1 then none
      else
        let rv := readVec d rl.2
        match deserialiseChildren k d fuel rc.1 rv.2 with
        | none => none
        | some cs =>
          some (Node.internal .state_unsplit rc.1
            (cs.1.map some ++ List.replicate (k + 1 - rc.1) none) rv.1 rl.1,
            cs.2)

/-- the `for which_child in 0 .. new_children-1` recursive reading loop. -/
def deserialiseChildren (k d : Nat) : Nat → Nat → TokStream →
    Option (List Node × TokStream)
  | _, 0, s => some ([], s)
  | fuel, c + 1, s =>
    match deserialise k d fuel s with
    | none => none
    | some r =>
      match deserialiseChildren k d fuel c r.2 with
      | none => none
      | some rs => some (r.1 :: rs.1, rs.2)

end

/-- k_tree::deserialise — deserialises the whole stream into the tree's new
root (the `fake_root` only supplies `max_children` and the dimensionality).
The fuel is one more than the stream length, which the totality lemma shows
can never be exhausted. -/
def ktreeDeserialise (k d : Nat) (s : TokStream) : Option (Node × TokStream) :=
  deserialise k d (s.tokens.length + 1) s

/-- k_tree::text_render — serialise from the root (nothing for a null
root). -/
def ktreeRender (k : Nat) : Option Node → List Token
  | none => []
  | some r => render k r

/-! ### The split engine: node::split (Elkan-style 2-means)

Numeric constants of the loop: `float_resolution` is the convergence
tolerance from k_tree.h, `flt_max` is `std::numeric_limits<float>::max()`.
The `sqrt(d)/2` squared of the half-distance computation equals `d / 4`
exactly in this exact-arithmetic embedding. -/

def float_resolution : ℚ := 1 / 1000000

def flt_max : ℚ := (2 - (1 / 2 : ℚ) ^ 23) * 2 ^ 127

/-- Per-pass clustering state of node::split: `assignment[]`, the
over-estimate `distance_to_assignment[]` (here `upper`), the under-estimate
`distance_to_other[]` (here `lower`), the two `cluster_size` counters and
the accumulating `new_sum_distance`. -/
structure ElkanState where
  assignment : List Nat
  upper : List ℚ
  lower : List ℚ
  size0 : Nat
  size1 : Nat
  sum : ℚ

/-- the `else` branch of the assignment loop (node.cpp lines 273-300):
recompute `distance_to_assignment` exactly; recompute `distance_to_other`
when the recomputed value is at least `h` or at least the old bound; then
swap the assignment when strictly farther, and on an exact tie place into
the smaller cluster (`cluster_size[0] < cluster_size[1] ? 0 : 1` — the
subsequent `if (place_in != assignment[which])` test in the source is dead,
as `assignment[which]` has just been set to `place_in`).  Returns the new
assignment and the new (upper, lower) bounds, post-swap. -/
def elkanElse (c0 c1 : Obj) (h : ℚ) (cc : Obj) (assign : Nat) (l : ℚ)
    (s0 s1 : Nat) : Nat × ℚ × ℚ :=
  let u1 := distance_squared (if assign = 0 then c0 else c1) cc
  let l1 :=
    if u1 ≥ h then distance_squared (if assign = 0 then c1 else c0) cc
    else if u1 ≥ l then distance_squared (if assign = 0 then c1 else c0) cc
    else l
  if u1 > l1 then (if assign = 0 then 1 else 0, l1, u1)
  else if u1 = l1 then
    let place_in := if s0 < s1 then 0 else 1
    (place_in, u1, l1)
  else (assign, u1, l1)

/-- one child's step of the assignment loop (node.cpp lines 261-305):
update the bounds by the centroid shifts — note the source's index
`delta[assignment[other]]`, which reads the assignment of the *child* with
index `other` (0 or 1) — keep the assignment when the updated bounds or the
half-distance `h` prove it, else run the recomputation branch.  The size
counters accumulate in every branch; `new_sum_distance` only in the
recomputation branch. -/
def elkanChildStep (c0 c1 : Obj) (h d0 d1 : ℚ) (childs : List (Option Node))
    (which : Nat) (st : ElkanState) : Option ElkanState :=
  let assign := st.assignment.getD which 0
  let other : Nat := if assign = 0 then 1 else 0
  let assignOther := st.assignment.getD other 0
  let l' := st.lower.getD which 0 - (if assignOther = 0 then d0 else d1)
  let u' := st.upper.getD which 0 + (if assign = 0 then d0 else d1)
  if u' < l' then
    some { st with
      upper := st.upper.set which u'
      lower := st.lower.set which l'
      size0 := if assign = 0 then st.size0 + 1 else st.size0
      size1 := if assign = 0 then st.size1 else st.size1 + 1 }
  else if u' < h then
    some { st with
      upper := st.upper.set which u'
      lower := st.lower.set which l'
      size0 := if assign = 0 then st.size0 + 1 else st.size0
      size1 := if assign = 0 then st.size1 else st.size1 + 1 }
  else
    match childs.getD which none with
    | none => none
    | some ch =>
      let r := elkanElse c0 c1 h ch.centroid assign l' st.size0 st.size1
      some { assignment := st.assignment.set which r.1
             upper := st.upper.set which r.2.1
             lower := st.lower.set which r.2.2
             size0 := if r.1 = 0 then st.size0 + 1 else st.size0
             size1 := if r.1 = 0 then st.size1 else st.size1 + 1
             sum := st.sum + r.2.1 }

/-- the `for which in 0 ..= max_children` assignment loop of one pass. -/
def elkanPass (k : Nat) (c0 c1 : Obj) (h d0 d1 : ℚ)
    (childs : List (Option Node)) : Nat → ElkanState → Option ElkanState
  | which, st =>
    if which ≤ k then
      match elkanChildStep c0 c1 h d0 d1 childs which st with
      | none => none
      | some st' => elkanPass k c0 c1 h d0 d1 childs (which + 1) st'
    else some st
termination_by which _ => k + 1 - which
decreasing_by all_goals omega

/-- the centroid-rebuild loop of one pass: sum the children assigned to
each cluster (node.cpp lines 310-314). -/
def clusterSumLoop (k : Nat) (childs : List (Option Node))
    (assignment : List Nat) : Nat → Obj → Obj → Option (Obj × Obj)
  | which, acc0, acc1 =>
    if which ≤ k then
      match childs.getD which none with
      | none => none
      | some ch =>
        if assignment.getD which 0 = 0 then
          clusterSumLoop k childs assignment (which + 1)
            (objAdd acc0 ch.centroid) acc1
        else
          clusterSumLoop k childs assignment (which + 1) acc0
            (objAdd acc1 ch.centroid)
    else some (acc0, acc1)
termination_by which _ _ => k + 1 - which
decreasing_by all_goals omega

/-- the `while (old_sum_distance > (1 + float_resolution) * new_sum_distance)`
clustering loop.  The source has no iteration cap; `fuel` bounds the
unrolling, with exhaustion totalized as `none`. -/
def elkanLoop (k dim : Nat) (childs : List (Option Node)) :
    Nat → ℚ → ℚ → Obj → Obj → ℚ → ℚ → ElkanState → Option ElkanState
  | 0, _, _, _, _, _, _, _ => none
  | fuel + 1, old, new, c0, c1, d0, d1, st =>
    if old > (1 + float_resolution) * new then
      let h := distance_squared c0 c1 / 4
      match elkanPass k c0 c1 h d0 d1 childs 0
          { st with
            size0 := 0
            size1 := 0
            sum := 0 } with
      | none => none
      | some st' =>
        match clusterSumLoop k childs st'.assignment 0 (objZero dim)
            (objZero dim) with
        | none => none
        | some sums =>
          let nc0 := objDiv sums.1 (st'.size0 : ℚ)
          let nc1 := objDiv sums.2 (st'.size1 : ℚ)
          elkanLoop k dim childs fuel new st'.sum nc0 nc1
            (distance_squared nc0 c0) (distance_squared nc1 c1) st'
    else some st

/-- the scan of node::split's initialisation (node.cpp lines 230-240):
over `which = 2 ..= max_children`, strict `<` from the starting candidate
index 1, keeping the child with the *smallest* squared distance to the
first cluster centroid. -/
def splitInitLoop (c0 : Obj) (childs : List (Option Node)) (k : Nat) :
    Nat → Nat → ℚ → Option (Nat × ℚ)
  | which, best, small =>
    if which ≤ k then
      match childs.getD which none with
      | none => none
      | some ch =>
        let dist := distance_squared c0 ch.centroid
        if dist < small then splitInitLoop c0 childs k (which + 1) which dist
        else splitInitLoop c0 childs k (which + 1) best small
    else some (best, small)
termination_by which _ _ => k + 1 - which
decreasing_by all_goals omega

/-- cluster centroid initialisation of node::split (node.cpp lines 226-241):
`centroid[0]` is the centroid of `child[initial_first_cluster]`;
`centroid[1]` is the centroid of the child among indices
`1 ..= max_children` whose squared distance to `centroid[0]` is smallest.
Returns `(centroid0, centroid1, best_choice)`. -/
def splitInit (k : Nat) (childs : List (Option Node))
    (initial_first_cluster : Nat) : Option (Obj × Obj × Nat) :=
  match childs.getD initial_first_cluster none with
  | none => none
  | some cinit =>
    let c0 := cinit.centroid
    match childs.getD 1 none with
    | none => none
    | some ch1 =>
      match splitInitLoop c0 childs k 2 1 (distance_squared c0 ch1.centroid) with
      | none => none
      | some best =>
        match childs.getD best.1 none with
        | none => none
        | some cb => some (c0, cb.centroid, best.1)

/-- the population loop of node::split (node.cpp lines 338-342): append
`this->child[which].load()` (the raw slot value) to the new node selected
by `assignment[which]`, in index order. -/
def distributeLoop (childs : List (Option Node)) (assignment : List Nat)
    (k : Nat) : Nat → List (Option Node) → List (Option Node) →
    List (Option Node) × List (Option Node)
  | which, acc0, acc1 =>
    if which ≤ k then
      if assignment.getD which 0 = 0 then
        distributeLoop childs assignment k (which + 1)
          (acc0 ++ [childs.getD which none]) acc1
      else
        distributeLoop childs assignment k (which + 1) acc0
          (acc1 ++ [childs.getD which none])
    else (acc0, acc1)
termination_by which _ _ => k + 1 - which
decreasing_by all_goals omega

/-- node::new_node(memory, (node *)nullptr) — a fresh internal node:
`max_children + 1` null slots, zeroed centroid of the creating node's
dimensionality, `children = leaves_below_this_point = 0`. -/
def newEmptyNode (k dim : Nat) : Node :=
  Node.internal .state_unsplit 0 (List.replicate (k + 1) none) (objZero dim) 0

/-- 4-argument node::split (node.cpp lines 179-345): initialise the two
cluster centroids, run the pruned 2-means loop, then distribute the
children of the (full) node into two fresh nodes according to the final
assignment.  Returns `(both clusters non-empty, child_1, child_2)`. -/
def split4 (k fuel : Nat) (n : Node) (initial_first_cluster : Nat) :
    Option (Bool × Node × Node) :=
  match n with
  | .leaf _ => none
  | .internal _ _ childs cent _ =>
    let dim := cent.length
    match splitInit k childs initial_first_cluster with
    | none => none
    | some init =>
      let st0 : ElkanState :=
        ⟨List.replicate (k + 1) 0, List.replicate (k + 1) flt_max,
          List.replicate (k + 1) 0, 0, 0, 0⟩
      match elkanLoop k dim childs fuel flt_max (flt_max / 2) init.1 init.2.1
          0 0 st0 with
      | none => none
      | some stf =>
        let lists := distributeLoop childs stf.assignment k 0 [] []
        let c1 := Node.internal .state_unsplit lists.1.length
          (lists.1 ++ List.replicate (k + 1 - lists.1.length) none)
          (objZero dim) 0
        let c2 := Node.internal .state_unsplit lists.2.length
          (lists.2 ++ List.replicate (k + 1 - lists.2.length) none)
          (objZero dim) 0
        some ((stf.size0 != 0) && (stf.size1 != 0), c1, c2)

/-- the first `max_children` slots are all non-null (the spin-wait target of
the 2-argument node::split). -/
def allSomeUpTo (childs : List (Option Node)) : Nat → Bool
  | 0 => true
  | m + 1 => (childs.getD m none).isSome && allSomeUpTo childs m

/-- the alternating fallback loop of the 2-argument node::split: even
indices to the first child, odd to the second. -/
def alternateLoop (childs : List (Option Node)) (k : Nat) :
    Nat → List (Option Node) → List (Option Node) →
    List (Option Node) × List (Option Node)
  | which, acc0, acc1 =>
    if which ≤ k then
      if which % 2 = 0 then
        alternateLoop childs k (which + 1) (acc0 ++ [childs.getD which none]) acc1
      else
        alternateLoop childs k (which + 1) acc0 (acc1 ++ [childs.getD which none])
    else (acc0, acc1)
termination_by which _ _ => k + 1 - which
decreasing_by all_goals omega

/-- overwrite of the out-nodes' slot arrays by the fallback: positions
`0 .. new.length - 1` are rewritten, later positions keep their previous
(stale) contents. -/
def overwriteSlots (old new : List (Option Node)) : List (Option Node) :=
  new ++ old.drop new.length

/-- the child array of a node (empty for a leaf). -/
def Node.childArray : Node → List (Option Node)
  | .leaf _ => []
  | .internal _ _ child _ _ => child

/-- 2-argument node::split (node.cpp lines 355-392): spin until
`child[0 .. max_children-1]` are all published (a null slot makes the
sequential interpretation spin forever: `none`), run the 4-argument split
with `initial_first_cluster = 0`; if everything landed in one cluster,
rebuild both out-nodes by the alternating-index fallback. -/
def split2 (k fuel : Nat) (n : Node) : Option (Node × Node) :=
  match n with
  | .leaf _ => none
  | .internal st cnt childs cent lb =>
    if allSomeUpTo childs k then
      match split4 k fuel (.internal st cnt childs cent lb) 0 with
      | none => none
      | some r =>
        if r.1 then some (r.2.1, r.2.2)
        else
          let lists := alternateLoop childs k 0 [] []
          some (Node.internal .state_unsplit lists.1.length
              (overwriteSlots r.2.1.childArray lists.1)
              r.2.1.centroid r.2.1.leavesBelow,
            Node.internal .state_unsplit lists.2.length
              (overwriteSlots r.2.2.childArray lists.2)
              r.2.2.centroid r.2.2.leavesBelow)
    else none

/-! ### node::compute_mean -/

/-- the accumulation loop of node::compute_mean over the clamped child
count, skipping null slots: `centroid.fused_multiply_add(child.centroid,
child.leaves_below)` and summing the leaf counts. -/
def computeMeanLoop : List (Option Node) → Nat → Obj → Nat → Obj × Nat
  | _, 0, acc, lc => (acc, lc)
  | [], _ + 1, acc, lc => (acc, lc)
  | none :: rest, m + 1, acc, lc => computeMeanLoop rest m acc lc
  | some ch :: rest, m + 1, acc, lc =>
    computeMeanLoop rest m
      (fused_multiply_add acc ch.centroid (ch.leavesBelow : ℚ))
      (lc + ch.leavesBelow)

/-- node::compute_mean — recompute the centroid as the leaf-count-weighted
mean of the children and refresh `leaves_below_this_point`.  Never called
on a leaf by the source (a leaf's null `child` array aside, it would divide
by zero). -/
def compute_mean (k : Nat) : Node → Node
  | .leaf c => .leaf c
  | .internal st cnt child cent lb =>
    let r := computeMeanLoop child (min cnt k) (objZero cent.length) 0
    let _ := lb
    .internal st cnt child (objDiv r.1 (r.2 : ℚ)) r.2

/-! ### The split lock: the (begin, end) counter (node.h context, node.cpp
take_lock / release_lock) -/

/-- node::context::in_out_count — the packed `(begin, end)` pair moved by
one 128-bit compare-exchange. -/
structure InOutCount where
  begin_ : Nat
  end_ : Nat
deriving DecidableEq

/-- the pieces of node::context relevant here: the snapshot
`context->split_count` taken at entry to the attempt, and the tree's live
`k_tree::split_count` it is compared against. -/
structure Ctx where
  snap : InOutCount
  treeCount : InOutCount
deriving DecidableEq

/-- node::take_lock (node.cpp lines 400-446): fail outright when the
snapshot has `begin != end`; otherwise 128-bit compare-exchange the tree
counter from the snapshot to `(begin+1, end)` — on success also advance the
snapshot's `begin` (so the release will match), on failure the
compare-exchange writes the observed value back into the expected operand
(`context->split_count`). -/
def take_lock (c : Ctx) : Bool × Ctx :=
  if c.snap.begin_ ≠ c.snap.end_ then (false, c)
  else
    let another : InOutCount := ⟨c.treeCount.begin_ + 1, c.treeCount.end_⟩
    if c.treeCount = c.snap then
      (true, ⟨⟨c.snap.begin_ + 1, c.snap.end_⟩, another⟩)
    else (false, ⟨c.treeCount, c.treeCount⟩)

/-- node::release_lock (node.cpp lines 453-457): `end++` on the held
snapshot, stored unconditionally into the tree counter. -/
def release_lock (c : Ctx) : Ctx :=
  ⟨⟨c.snap.begin_, c.snap.end_ + 1⟩, ⟨c.snap.begin_, c.snap.end_ + 1⟩⟩

/-! ### Insertion: node::add_to_leaf, node::add_to_node,
k_tree::attempt_push_back -/

/-- the incremental mean update at the end of node::add_to_node (lines
578-595): `centroid += (data - centroid) / (leaves_below + 1)` then
`leaves_below++`. -/
def meanUpdate (data : Obj) : Node → Node
  | .leaf c => .leaf c
  | .internal st cnt ch cent lb =>
    .internal st cnt ch (fused_subtract_divide cent data ((lb : ℚ) + 1)) (lb + 1)

/-- the `if (did_split != result_retry)` guard around the incremental mean
update. -/
def applyMean (data : Obj) (r : Result × Node × Option (Node × Node) × Ctx) :
    Result × Node × Option (Node × Node) × Ctx :=
  if r.1 = .result_retry then r
  else (r.1, meanUpdate data r.2.1, r.2.2.1, r.2.2.2)

/-- node::add_to_leaf (node.cpp lines 468-528): reserve a slot by the
atomic `children++`; below `max_children`, publish a new leaf there
(`result_success`).  Otherwise state the split intention by compare-exchange
on `split_state` (`result_retry` on failure), take the tree lock
(`result_retry` and a reset to `state_unsplit` on failure), else publish the
new leaf into slot `max_children` and run the split
(`result_split` with the two mean-recomputed out-nodes). -/
def add_to_leaf (k fuel : Nat) (ctx : Ctx) (data : Obj) :
    Node → Option (Result × Node × Option (Node × Node) × Ctx)
  | .leaf _ => none
  | .internal st cnt child cent lb =>
    let my_slot := cnt
    let cnt' := cnt + 1
    if my_slot < k then
      some (.result_success,
        .internal st cnt' (child.set my_slot (some (.leaf data))) cent lb,
        none, ctx)
    else
      if st = .state_unsplit then
        let lk := take_lock ctx
        if lk.1 then
          let child' := child.set k (some (.leaf data))
          match split2 k fuel (.internal .state_split cnt' child' cent lb) with
          | none => none
          | some p =>
            some (.result_split, .internal .state_split cnt' child' cent lb,
              some (compute_mean k p.1, compute_mean k p.2), lk.2)
        else
          some (.result_retry, .internal .state_unsplit cnt' child cent lb,
            none, lk.2)
      else
        some (.result_retry, .internal st cnt' child cent lb, none, ctx)

/-- helper for the nested-recursion termination of add_to_node. -/
theorem mem_of_getD_some {l : List (Option Node)} {i : Nat} {x : Node}
    (h : l.getD i none = some x) : some x ∈ l := by
  rw [List.getD_eq_getElem?_getD] at h
  match hg : l[i]? with
  | some v =>
    rw [hg] at h
    simp at h
    subst h
    exact List.getElem?_mem hg
  | none => rw [hg] at h; simp at h

/-- sizeOf bound for a node stored in a slot of an internal node. -/
theorem sizeOf_lt_of_slot {x : Node} {l : List (Option Node)}
    (h : some x ∈ l) (st : SplitState) (cnt : Nat) (c : Obj) (lb : Nat) :
    sizeOf x < sizeOf (Node.internal st cnt l c lb) := by
  have h1 : sizeOf (some x) < sizeOf l := List.sizeOf_lt_of_mem h
  simp only [Node.internal.sizeOf_spec]
  simp only [Option.some.sizeOf_spec] at h1
  omega

/-- node::add_to_node (node.cpp lines 541-601): if the children are leaves,
delegate to add_to_leaf on this node; else descend into the closest child.
When the recursion reports a split, replace `child[best_child]` with the
first out-node, publish the second into slot `children`, bump the counter,
and either split this node too (keeping the lock, `result_split`) or
release the lock (`result_success`).  Unless the outcome is a retry, apply
the incremental mean update to this node. -/
def add_to_node (k fuel : Nat) (ctx : Ctx) (data : Obj) :
    Node → Option (Result × Node × Option (Node × Node) × Ctx)
  | .leaf _ => none
  | .internal st cnt child cent lb =>
    match child.getD 0 none with
    | none => none
    | some c0 =>
      if c0.isleaf then
        match add_to_leaf k fuel ctx data (.internal st cnt child cent lb) with
        | none => none
        | some r => some (applyMean data r)
      else
        match closest k data (.internal st cnt child cent lb) with
        | none => none
        | some best =>
          match hb : child.getD best none with
          | none => none
          | some nb =>
            match add_to_node k fuel ctx data nb with
            | none => none
            | some r =>
              match r.1, r.2.2.1 with
              | .result_split, some pair =>
                let child1 := (child.set best (some pair.1)).set cnt (some pair.2)
                let cnt' := cnt + 1
                if cnt' > k then
                  match split2 k fuel (.internal st cnt' child1 cent lb) with
                  | none => none
                  | some p2 =>
                    some (applyMean data (.result_split,
                      .internal st cnt' child1 cent lb,
                      some (compute_mean k p2.1, compute_mean k p2.2),
                      r.2.2.2))
                else
                  some (applyMean data (.result_success,
                    .internal st cnt' child1 cent lb, none,
                    release_lock r.2.2.2))
              | .result_split, none => none
              | res, _ =>
                some (applyMean data (res,
                  .internal st cnt (child.set best (some r.2.1)) cent lb,
                  none, r.2.2.2))
termination_by n => sizeOf n
decreasing_by
  simp_wf
  rename_i st0 cnt0 child0 cent0 lb0
  have h1 : sizeOf (some nb) < sizeOf child0 := by
    exact List.sizeOf_lt_of_mem (mem_of_getD_some hb)
  simp only [Option.some.sizeOf_spec] at h1
  omega

/-- the tree state: the atomic root pointer and the packed split counter. -/
structure KTreeState where
  root : Option Node
  split_count : InOutCount

/-- k_tree::attempt_push_back (k_tree.cpp lines 34-85): snapshot the split
counter into the descent context; a null root is replaced (under the lock)
by a fresh one-child root over a new leaf; otherwise descend via
add_to_node.  A split arriving at the top becomes a new two-child root, and
the lock (held since the deepest split) is released.  `k_tree::push_back`
retries this until `result_success`. -/
def attempt_push_back (k d fuel : Nat) (t : KTreeState) (data : Obj) :
    Option (Result × KTreeState) :=
  let ctx : Ctx := ⟨t.split_count, t.split_count⟩
  match t.root with
  | none =>
    let lk := take_lock ctx
    if lk.1 then
      let leaf := Node.leaf data
      let root0 : Node :=
        .internal .state_unsplit 1 (some leaf :: List.replicate k none)
          (objZero d) 1
      let root1 := compute_mean k root0
      let ctx' := release_lock lk.2
      some (.result_success, ⟨some root1, ctx'.treeCount⟩)
    else some (.result_retry, ⟨none, lk.2.treeCount⟩)
  | some r =>
    match add_to_node k fuel ctx data r with
    | none => none
    | some rr =>
      match rr.1, rr.2.2.1 with
      | .result_split, some pair =>
        let c1 := compute_mean k pair.1
        let c2 := compute_mean k pair.2
        let nr0 : Node :=
          .internal .state_unsplit 2
            (some c1 :: some c2 :: List.replicate (k - 1) none) (objZero d) 1
        let nr1 := compute_mean k nr0
        let ctx' := release_lock rr.2.2.2
        some (.result_success, ⟨some nr1, ctx'.treeCount⟩)
      | .result_split, none => none
      | res, _ => some (res, ⟨some rr.2.1, rr.2.2.2.treeCount⟩)

/-! ### Observables used by the theorems -/

mutual

/-- every leaf below the node sits exactly `h` levels down (`h = 0` means
the node itself is a leaf).  An internal node is always above its leaves,
so no budget-0 internal qualifies. -/
def allLeavesAt : Node → Nat → Bool
  | .leaf _, h => h = 0
  | .internal _ _ _ _ _, 0 => false
  | .internal _ _ child _ _, h + 1 => slotsLeavesAt child h

/-- `allLeavesAt … h` over every non-null slot. -/
def slotsLeavesAt : List (Option Node) → Nat → Bool
  | [], _ => true
  | none :: rest, h => slotsLeavesAt rest h
  | some n :: rest, h => allLeavesAt n h && slotsLeavesAt rest h

end

mutual

/-- the leaf vectors reachable by the code's traversals (clamped child
count, null slots skipped), in traversal order. -/
def leafList (k : Nat) : Node → List Obj
  | .leaf c => [c]
  | .internal _ cnt child _ _ => leafSlots k (min cnt k) child

/-- the traversal over the first `m` slots. -/
def leafSlots (k : Nat) : Nat → List (Option Node) → List Obj
  | 0, _ => []
  | _ + 1, [] => []
  | m + 1, none :: rest => leafSlots k m rest
  | m + 1, some n :: rest => leafList k n ++ leafSlots k m rest

end

/-- squared distance from the query to the node in slot `i` (0 for a null
slot; only ever used under an `isSome` hypothesis). -/
def distTo (what : Obj) (child : List (Option Node)) (i : Nat) : ℚ :=
  match child.getD i none with
  | some c => distance_squared what c.centroid
  | none => 0

/-- invariant-carrying specification of the scan of node::closest: starting
from a valid running minimum, it ends on a non-null slot of minimal
distance, strictly below every earlier non-null slot (lowest-index
tie-break). -/
theorem closestLoop_spec (what : Obj) (child : List (Option Node))
    (count : Nat) :
    ∀ fuel which best mind, count - which ≤ fuel →
    best < which →
    (child.getD best none).isSome = true →
    mind = distTo what child best →
    (∀ j, j < which → (child.getD j none).isSome = true →
      mind ≤ distTo what child j) →
    (∀ j, j < best → (child.getD j none).isSome = true →
      mind < distTo what child j) →
    ((child.getD (closestLoop what child count which best mind).1 none).isSome
        = true ∧
      (closestLoop what child count which best mind).2
        = distTo what child (closestLoop what child count which best mind).1 ∧
      (∀ j, j < count → (child.getD j none).isSome = true →
        (closestLoop what child count which best mind).2
          ≤ distTo what child j) ∧
      (∀ j, j < (closestLoop what child count which best mind).1 →
        (child.getD j none).isSome = true →
        (closestLoop what child count which best mind).2
          < distTo what child j) ∧
      ((closestLoop what child count which best mind).1 < count ∨
        (closestLoop what child count which best mind).1 = best)) := by
  intro fuel
  induction fuel with
  | zero =>
    intro which best mind hf hbw hsome hmind hmin hstrict
    have hw : ¬ which < count := by omega
    have hre : closestLoop what child count which best mind = (best, mind) := by
      rw [closestLoop]
      simp only [hw, if_false]
    rw [hre]
    exact ⟨hsome, hmind, fun j hj hjs => hmin j (by omega) hjs,
      fun j hj hjs => hstrict j hj hjs, Or.inr rfl⟩
  | succ fl ih =>
    intro which best mind hf hbw hsome hmind hmin hstrict
    by_cases hw : which < count
    · cases hg : child.getD which none with
      | some c =>
        have hd : distTo what child which = distance_squared what c.centroid := by
          unfold distTo
          rw [hg]
        by_cases hlt : distance_squared what c.centroid < mind
        · have hre : closestLoop what child count which best mind
              = closestLoop what child count (which + 1) which
                (distance_squared what c.centroid) := by
            rw [closestLoop]
            simp only [hw, if_true]
            rw [hg]
            simp only [hlt, if_true]
          rw [hre]
          have H := ih (which + 1) which (distance_squared what c.centroid)
            (by omega) (by omega) (by rw [hg]; rfl) hd.symm
            (by
              intro j hj hjs
              by_cases hje : j = which
              · subst hje
                rw [hd]
              · calc distance_squared what c.centroid ≤ mind := le_of_lt hlt
                  _ ≤ distTo what child j := hmin j (by omega) hjs)
            (by
              intro j hj hjs
              calc distance_squared what c.centroid < mind := hlt
                _ ≤ distTo what child j := hmin j (by omega) hjs)
          refine ⟨H.1, H.2.1, H.2.2.1, H.2.2.2.1, ?_⟩
          rcases H.2.2.2.2 with hh | hh
          · exact Or.inl hh
          · exact Or.inl (by omega)
        · have hre : closestLoop what child count which best mind
              = closestLoop what child count (which + 1) best mind := by
            rw [closestLoop]
            simp only [hw, if_true]
            rw [hg]
            simp only [hlt, if_false]
          rw [hre]
          refine ih (which + 1) best mind (by omega) (by omega) hsome hmind
            ?_ hstrict
          intro j hj hjs
          by_cases hje : j = which
          · subst hje
            rw [hd]
            exact le_of_not_lt hlt
          · exact hmin j (by omega) hjs
      | none =>
        have hre : closestLoop what child count which best mind
            = closestLoop what child count (which + 1) best mind := by
          rw [closestLoop]
          simp only [hw, if_true]
          rw [hg]
        rw [hre]
        refine ih (which + 1) best mind (by omega) (by omega) hsome hmind
          ?_ hstrict
        intro j hj hjs
        by_cases hje : j = which
        · subst hje
          rw [hg] at hjs
          simp at hjs
        · exact hmin j (by omega) hjs
    · have hre : closestLoop what child count which best mind = (best, mind) := by
        rw [closestLoop]
        simp only [hw, if_false]
      rw [hre]
      exact ⟨hsome, hmind, fun j hj hjs => hmin j (by omega) hjs,
        fun j hj hjs => hstrict j hj hjs, Or.inr rfl⟩

/-- C8 (amended): whenever slot 0 is non-null (the code dereferences
`child[0]` unconditionally, so this is the precondition the claim lacks),
node::closest scans the clamped child count skipping the other null slots
and returns an index holding a non-null child whose squared distance to the
query is ≤ that of every non-null child in range, with exact ties broken to
the lowest index (the returned index is in range, or is 0 when the clamped
count is 0). -/
theorem closest_minimal (k : Nat) (what : Obj) (st : SplitState) (cnt : Nat)
    (child : List (Option Node)) (cent : Obj) (lb : Nat) (c0 : Node)
    (h0 : child.getD 0 none = some c0) :
    ∃ i, closest k what (.internal st cnt child cent lb) = some i ∧
      (child.getD i none).isSome = true ∧
      (∀ j, j < min cnt k → (child.getD j none).isSome = true →
        distTo what child i ≤ distTo what child j) ∧
      (∀ j, j < i → (child.getD j none).isSome = true →
        distTo what child i < distTo what child j) ∧
      (i < min cnt k ∨ i = 0) := by
  have hd0 : distance_squared what c0.centroid = distTo what child 0 := by
    unfold distTo
    rw [h0]
  have hs := closestLoop_spec what child (min cnt k)
    (min cnt k) 1 0 (distance_squared what c0.centroid) (by omega) (by omega)
    (by rw [h0]; rfl) hd0
    (by
      intro j hj hjs
      have : j = 0 := by omega
      subst this
      rw [hd0])
    (by intro j hj; omega)
  refine ⟨(closestLoop what child (min cnt k) 1 0
      (distance_squared what c0.centroid)).1, ?_, hs.1, ?_, ?_, ?_⟩
  · simp only [closest]
    rw [h0]
  · intro j hj hjs
    have := hs.2.2.1 j hj hjs
    rw [hs.2.1] at this
    exact this
  · intro j hj hjs
    have := hs.2.2.2.1 j hj hjs
    rw [hs.2.1] at this
    exact this
  · rcases hs.2.2.2.2 with h | h
    · exact Or.inl h
    · exact Or.inr h

/-- concrete child array for the closest-child witness. -/
def childC8w : List (Option Node) := [some (.leaf [4]), some (.leaf [1]), none]

/-- Witness for `closest_minimal` at `k = 2`, query `[0]`, children `[4]` and
`[1]`: the hypothesis (slot 0 non-null) holds and the scan picks a minimal
non-null slot. -/
theorem closest_minimal_witness :
    childC8w.getD 0 none = some (Node.leaf [4]) ∧
    (∃ i, closest 2 [0] (.internal .state_unsplit 2 childC8w [0] 2) = some i ∧
      (childC8w.getD i none).isSome = true ∧
      (∀ j, j < min 2 2 → (childC8w.getD j none).isSome = true →
        distTo [0] childC8w i ≤ distTo [0] childC8w j) ∧
      (∀ j, j < i → (childC8w.getD j none).isSome = true →
        distTo [0] childC8w i < distTo [0] childC8w j) ∧
      (i < min 2 2 ∨ i = 0)) :=
  ⟨rfl, closest_minimal 2 [0] .state_unsplit 2 childC8w [0] 2 (.leaf [4]) rfl⟩

/-- Counterexample to C8 as stated: the claim quantifies over *every* node
state and promises that node::closest skips every null slot and returns a
minimising index; but the code dereferences `child[0]` before the loop, so
on a node whose slot 0 is null (e.g. one whose first writer has reserved
slot 0 but not yet published) there is no defined result at all. -/
theorem closest_null_slot_zero :
    closest 2 [0] (.internal .state_unsplit 1 [none, none, none] [0] 1)
      = none := rfl

/-! ### C6: initialisation of the split centroids -/

/-- specification of the splitInitLoop scan: starting from candidate 1, it
returns an index in `1 ..= k` minimising the squared distance to `c0`,
provided every slot up to `k` is non-null. -/
theorem splitInitLoop_spec (c0 : Obj) (childs : List (Option Node)) (k : Nat)
    (hall : ∀ j, j ≤ k → (childs.getD j none).isSome = true) :
    ∀ fuel which best small, k + 1 - which ≤ fuel → 2 ≤ which →
    1 ≤ best → best < which → best ≤ k →
    small = distTo c0 childs best →
    (∀ j, 1 ≤ j → j < which → small ≤ distTo c0 childs j) →
    ∃ r, splitInitLoop c0 childs k which best small = some r ∧
      1 ≤ r.1 ∧ r.1 ≤ k ∧ r.2 = distTo c0 childs r.1 ∧
      (∀ j, 1 ≤ j → j ≤ k → r.2 ≤ distTo c0 childs j) := by
  intro fuel
  induction fuel with
  | zero =>
    intro which best small hf h2 hb1 hbw hbk hsmall hmin
    have hw : ¬ which ≤ k := by omega
    have hre : splitInitLoop c0 childs k which best small = some (best, small) := by
      rw [splitInitLoop]
      simp only [hw, if_false]
    exact ⟨(best, small), hre, hb1, hbk, hsmall,
      fun j hj1 hjk => hmin j hj1 (by omega)⟩
  | succ fl ih =>
    intro which best small hf h2 hb1 hbw hbk hsmall hmin
    by_cases hw : which ≤ k
    · have hsome := hall which hw
      cases hg : childs.getD which none with
      | none => rw [hg] at hsome; simp at hsome
      | some ch =>
        have hd : distTo c0 childs which = distance_squared c0 ch.centroid := by
          unfold distTo
          rw [hg]
        by_cases hlt : distance_squared c0 ch.centroid < small
        · have hre : splitInitLoop c0 childs k which best small
              = splitInitLoop c0 childs k (which + 1) which
                (distance_squared c0 ch.centroid) := by
            rw [splitInitLoop]
            simp only [hw, if_true]
            rw [hg]
            simp only [hlt, if_true]
          rw [hre]
          refine ih (which + 1) which (distance_squared c0 ch.centroid)
            (by omega) (by omega) (by omega) (by omega) hw hd.symm ?_
          intro j hj1 hj
          by_cases hje : j = which
          · subst hje
            rw [hd]
          · calc distance_squared c0 ch.centroid ≤ small := le_of_lt hlt
              _ ≤ distTo c0 childs j := hmin j hj1 (by omega)
        · have hre : splitInitLoop c0 childs k which best small
              = splitInitLoop c0 childs k (which + 1) best small := by
            rw [splitInitLoop]
            simp only [hw, if_true]
            rw [hg]
            simp only [hlt, if_false]
          rw [hre]
          refine ih (which + 1) best small (by omega) (by omega) hb1 (by omega)
            hbk hsmall ?_
          intro j hj1 hj
          by_cases hje : j = which
          · subst hje
            rw [hd]
            exact le_of_not_lt hlt
          · exact hmin j hj1 (by omega)
    · have hre : splitInitLoop c0 childs k which best small = some (best, small) := by
        rw [splitInitLoop]
        simp only [hw, if_false]
      exact ⟨(best, small), hre, hb1, hbk, hsmall,
        fun j hj1 hjk => hmin j hj1 (by omega)⟩

/-- C6 (confirmed): node::split initialises `centroid[0]` to the centroid of
`child[initial_first_cluster]` (0 by default at both call sites) and
`centroid[1]` to the centroid of the child, among indices
`1 ..= max_children`, whose squared distance to `centroid[0]` is smallest —
the nearest child, not the furthest one named in the source comment. -/
theorem splitInit_nearest (k : Nat) (childs : List (Option Node))
    (initial : Nat) (hk : 1 ≤ k)
    (hall : ∀ j, j ≤ k → (childs.getD j none).isSome = true)
    (hinit : initial ≤ k) :
    ∃ ci b cb, childs.getD initial none = some ci ∧
      childs.getD b none = some cb ∧
      splitInit k childs initial = some (ci.centroid, cb.centroid, b) ∧
      1 ≤ b ∧ b ≤ k ∧
      (∀ j, 1 ≤ j → j ≤ k →
        distTo ci.centroid childs b ≤ distTo ci.centroid childs j) := by
  have hsi := hall initial hinit
  cases hgi : childs.getD initial none with
  | none => rw [hgi] at hsi; simp at hsi
  | some ci =>
    have hs1 := hall 1 hk
    cases hg1 : childs.getD 1 none with
    | none => rw [hg1] at hs1; simp at hs1
    | some ch1 =>
      have hd1 : distTo ci.centroid childs 1
          = distance_squared ci.centroid ch1.centroid := by
        unfold distTo
        rw [hg1]
      obtain ⟨r, hr, hr1, hrk, hrd, hrmin⟩ := splitInitLoop_spec ci.centroid
        childs k hall (k + 1) 2 1
        (distance_squared ci.centroid ch1.centroid) (by omega) (by omega)
        (by omega) (by omega) hk hd1.symm
        (by
          intro j hj1 hj
          have : j = 1 := by omega
          subst this
          rw [hd1])
      have hsb := hall r.1 hrk
      cases hgb : childs.getD r.1 none with
      | none => rw [hgb] at hsb; simp at hsb
      | some cb =>
        refine ⟨ci, r.1, cb, rfl, hgb, ?_, hr1, hrk, ?_⟩
        · simp only [splitInit, hgi, hg1, hr, hgb]
        · intro j hj1 hjk
          rw [← hrd]
          exact hrmin j hj1 hjk

/-- Witness for `splitInit_nearest` at `k = 2` with children `[0]`, `[9]`,
`[1]`: the nearest non-initial child is slot 2. -/
theorem splitInit_nearest_witness :
    (1 ≤ 2 ∧ (∀ j, j ≤ 2 →
        (([some (Node.leaf [0]), some (.leaf [9]), some (.leaf [1])] :
          List (Option Node)).getD j none).isSome = true) ∧ 0 ≤ 2) ∧
    (∃ ci b cb,
      ([some (Node.leaf [0]), some (.leaf [9]), some (.leaf [1])] :
        List (Option Node)).getD 0 none = some ci ∧
      ([some (Node.leaf [0]), some (.leaf [9]), some (.leaf [1])] :
        List (Option Node)).getD b none = some cb ∧
      splitInit 2 [some (.leaf [0]), some (.leaf [9]), some (.leaf [1])] 0
        = some (ci.centroid, cb.centroid, b) ∧
      1 ≤ b ∧ b ≤ 2 ∧
      (∀ j, 1 ≤ j → j ≤ 2 →
        distTo ci.centroid
          [some (.leaf [0]), some (.leaf [9]), some (.leaf [1])] b
        ≤ distTo ci.centroid
          [some (.leaf [0]), some (.leaf [9]), some (.leaf [1])] j)) :=
  ⟨⟨by omega, by decide, by omega⟩,
    splitInit_nearest 2 [some (.leaf [0]), some (.leaf [9]), some (.leaf [1])]
      0 (by omega) (by decide) (by omega)⟩

/-! ### C7: the exact-tie placement in the split engine -/

/-- C7 (amended): in the recomputation branch of the split engine, when the
exactly recomputed squared distances to the two cluster centroids are equal
(the second is recomputed whenever the first is at least `h` or at least
the stale lower bound), the child is placed into whichever cluster
currently has fewer elements — and into the *second* cluster (index 1) when
the sizes are equal, because the source computes
`cluster_size[0] < cluster_size[1] ? 0 : 1`. -/
theorem elkanElse_tie (c0 c1 : Obj) (h : ℚ) (cc : Obj) (assign : Nat)
    (l : ℚ) (s0 s1 : Nat)
    (hrec : distance_squared (if assign = 0 then c0 else c1) cc ≥ h ∨
      distance_squared (if assign = 0 then c0 else c1) cc ≥ l)
    (heq : distance_squared (if assign = 0 then c0 else c1) cc
      = distance_squared (if assign = 0 then c1 else c0) cc) :
    (elkanElse c0 c1 h cc assign l s0 s1).1 = if s0 < s1 then 0 else 1 := by
  unfold elkanElse
  rcases hrec with hge | hge
  · simp only [ge_iff_le, hge, if_true, ← heq]
    simp
  · by_cases hh : distance_squared (if assign = 0 then c0 else c1) cc ≥ h
    · simp only [ge_iff_le, hh, if_true, ← heq]
      simp
    · simp only [ge_iff_le, hh, if_false, hge, if_true, ← heq]
      simp

/-- Witness for `elkanElse_tie`: child `[0]` equidistant from centroids `[1]`
and `[-1]`, sizes 1 and 3 — placed into cluster 0, the smaller one. -/
theorem elkanElse_tie_witness :
    ((distance_squared [1] [0] ≥ (1 : ℚ) ∨ distance_squared [1] [0] ≥ 0) ∧
      distance_squared [1] [0] = distance_squared [-1] [0]) ∧
    (elkanElse [1] [-1] 1 [0] 0 0 1 3).1 = if 1 < 3 then 0 else 1 :=
  ⟨⟨by norm_num [distance_squared], by norm_num [distance_squared]⟩,
    elkanElse_tie [1] [-1] 1 [0] 0 0 1 3 (by norm_num [distance_squared])
      (by norm_num [distance_squared])⟩

/-- Counterexample to C7 as stated: on an exact tie with *equal* cluster
sizes (here 0 and 0) the claim places the child into the first cluster, but
the code places it into cluster index 1 — the second. -/
theorem elkanElse_tie_equal_sizes :
    (elkanElse [1] [-1] 1 [0] 0 0 0 0).1 = 1 := by
  norm_num [elkanElse, distance_squared]

/-! ### C2: add_to_leaf on a slot strictly above max_children -/

/-- C2 (amended): when the reserved slot index (`children++`) is strictly
greater than `max_children`, add_to_leaf returns `result_retry` — publishing
no leaf and performing no split — **only when** the split-state
compare-exchange fails (the node is already `state_split`) or the tree lock
cannot be taken; in those cases the child array, the split pair and the
tree counter are untouched (only the `children` counter stays incremented,
and a failed lock resets the state to `state_unsplit`). -/
theorem add_to_leaf_overfull_retry (k fuel : Nat) (ctx : Ctx) (data : Obj)
    (st : SplitState) (cnt : Nat) (child : List (Option Node)) (cent : Obj)
    (lb : Nat) (hslot : cnt > k) :
    (st = .state_split →
      add_to_leaf k fuel ctx data (.internal st cnt child cent lb)
        = some (.result_retry, .internal st (cnt + 1) child cent lb, none,
            ctx)) ∧
    (st = .state_unsplit → (take_lock ctx).1 = false →
      add_to_leaf k fuel ctx data (.internal st cnt child cent lb)
        = some (.result_retry,
            .internal .state_unsplit (cnt + 1) child cent lb, none,
            (take_lock ctx).2)) := by
  have h1 : ¬ cnt < k := by omega
  constructor
  · intro hst
    subst hst
    unfold add_to_leaf
    simp [h1]
  · intro hst hlk
    subst hst
    unfold add_to_leaf
    simp [h1, hlk]

/-- Witness for `add_to_leaf_overfull_retry`: `k = 2`, an over-full
leaf-parent with `children = 3 > 2` already marked `state_split` retries
without publishing or splitting. -/
theorem add_to_leaf_overfull_retry_witness :
    (3 > 2) ∧
    ((SplitState.state_split = .state_split →
      add_to_leaf 2 8 ⟨⟨0, 0⟩, ⟨0, 0⟩⟩ [10]
        (.internal .state_split 3 [some (.leaf [0]), some (.leaf [1]), none]
          [0] 2)
        = some (.result_retry,
            .internal .state_split (3 + 1)
              [some (.leaf [0]), some (.leaf [1]), none] [0] 2, none,
            ⟨⟨0, 0⟩, ⟨0, 0⟩⟩)) ∧
    (SplitState.state_split = .state_unsplit →
      (take_lock ⟨⟨0, 0⟩, ⟨0, 0⟩⟩).1 = false →
      add_to_leaf 2 8 ⟨⟨0, 0⟩, ⟨0, 0⟩⟩ [10]
        (.internal .state_split 3 [some (.leaf [0]), some (.leaf [1]), none]
          [0] 2)
        = some (.result_retry,
            .internal .state_unsplit (3 + 1)
              [some (.leaf [0]), some (.leaf [1]), none] [0] 2, none,
            (take_lock ⟨⟨0, 0⟩, ⟨0, 0⟩⟩).2))) :=
  ⟨by omega, add_to_leaf_overfull_retry 2 8 ⟨⟨0, 0⟩, ⟨0, 0⟩⟩ [10]
    .state_split 3 [some (.leaf [0]), some (.leaf [1]), none] [0] 2
    (by omega)⟩

/-- Counterexample to C2 as stated: a node left over-full by a failed split
attempt (`children = 3 > max_children = 2`, slot `max_children` unpublished,
state back to `state_unsplit`) with the tree lock free.  The reserved slot
is `3 > max_children`, yet the call does not return `result_retry`: the
split-state compare-exchange succeeds and the call proceeds to publish into
slot `max_children` and split (the possible outcomes of this run are the
split result or — were the clustering to diverge — no result at all; a
retry is not among them). -/
theorem add_to_leaf_overfull_splits :
    (add_to_leaf 2 8 ⟨⟨0, 0⟩, ⟨0, 0⟩⟩ [10]
      (.internal .state_unsplit 3 [some (.leaf [0]), some (.leaf [1]), none]
        [0] 2)).map (fun r => r.1) ≠ some Result.result_retry := by
  unfold add_to_leaf
  have h1 : ¬ (3 < 2) := by omega
  simp only [h1, if_false, reduceIte]
  have hlk : take_lock ⟨⟨0, 0⟩, ⟨0, 0⟩⟩ = (true, ⟨⟨1, 0⟩, ⟨1, 0⟩⟩) := by
    unfold take_lock
    simp
  rw [hlk]
  simp only []
  cases hs : split2 2 8 (.internal .state_split (3 + 1)
      ((([some (.leaf [0]), some (.leaf [1]), none] :
        List (Option Node))).set 2 (some (.leaf [10]))) [0] 2) with
  | none => simp
  | some p => simp

/-! ### C1: insert attempts whose snapshot has begin ≠ end -/

/-- the leaf multiset of a whole tree (empty for a null root). -/
def ktreeLeafList (k : Nat) (t : KTreeState) : List Obj :=
  match t.root with
  | none => []
  | some r => leafList k r

/-- take_lock fails, touching nothing, whenever the snapshot in the descent
context has `begin ≠ end`. -/
theorem take_lock_stale {c : Ctx} (h : c.snap.begin_ ≠ c.snap.end_) :
    take_lock c = (false, c) := by
  unfold take_lock
  simp [h]

/-- replacing a slot by a node with the same leaf multiset preserves the
traversal's leaf multiset. -/
theorem leafSlots_set (k : Nat) {a b : Node} :
    ∀ (m : Nat) (child : List (Option Node)) (i : Nat),
    child.getD i none = some a → leafList k b = leafList k a →
    leafSlots k m (child.set i (some b)) = leafSlots k m child := by
  intro m
  induction m with
  | zero => intro child i _ _; simp [leafSlots]
  | succ m ih =>
    intro child i hg hab
    cases child with
    | nil => simp at hg
    | cons x xs =>
      cases i with
      | zero =>
        simp only [List.getD] at hg
        simp at hg
        subst hg
        simp only [List.set]
        rw [leafSlots, leafSlots]
        rw [hab]
      | succ j =>
        simp only [List.set]
        have hg' : xs.getD j none = some a := by
          simpa [List.getD] using hg
        cases x with
        | none =>
          rw [leafSlots, leafSlots]
          exact ih xs j hg' hab
        | some y =>
          rw [leafSlots, leafSlots]
          rw [ih xs j hg' hab]

/-- leafList ignores everything but the child array and the clamped count. -/
theorem leafList_congr (k : Nat) (st st' : SplitState) (cnt cnt' : Nat)
    (child : List (Option Node)) (cent cent' : Obj) (lb lb' : Nat)
    (h : min cnt k = min cnt' k) :
    leafList k (.internal st cnt child cent lb)
      = leafList k (.internal st' cnt' child cent' lb') := by
  rw [leafList, leafList, h]

/-- every node has positive size. -/
theorem Node.sizeOf_pos (n : Node) : 0 < sizeOf n := by
  cases n <;> simp

/-- under a stale snapshot (`begin ≠ end`), add_to_leaf can only append into
a free slot or retry: it never splits, never touches the split counter, and
a retry leaves the leaf multiset unchanged. -/
theorem add_to_leaf_stale (k fuel : Nat) (ctx : Ctx) (data : Obj)
    (h : ctx.snap.begin_ ≠ ctx.snap.end_) :
    ∀ n r, add_to_leaf k fuel ctx data n = some r →
      r.1 ≠ .result_split ∧ r.2.2.2 = ctx ∧
      (r.1 = .result_retry → leafList k r.2.1 = leafList k n) := by
  intro n r heq
  cases n with
  | leaf c => rw [add_to_leaf] at heq; simp at heq
  | internal st cnt child cent lb =>
    rw [add_to_leaf] at heq
    by_cases hc : cnt < k
    · simp only [hc, if_true] at heq
      simp at heq
      rw [← heq]
      refine ⟨by simp, by simp, ?_⟩
      intro hret
      simp at hret
    · by_cases hst : st = SplitState.state_unsplit
      · subst hst
        simp only [hc, if_false, reduceIte, take_lock_stale h] at heq
        simp at heq
        rw [← heq]
        refine ⟨by simp, by simp, ?_⟩
        intro _
        exact leafList_congr k _ _ _ _ child _ _ _ _ (by omega)
      · simp only [hc, if_false, hst, reduceIte] at heq
        simp at heq
        rw [← heq]
        refine ⟨by simp, by simp, ?_⟩
        intro _
        exact leafList_congr k _ _ _ _ child _ _ _ _ (by omega)

/-- C1 (amended): the split counter is snapshotted into the descent context
at entry (`node::context(this, memory, split_count)`), and under a snapshot
with `begin ≠ end` every take_lock fails, so the whole attempt performs no
split: no `result_split` is ever produced at any level, the split counter
is untouched, and a retry outcome leaves the tree's leaf multiset
unchanged.  (An attempt that finds a free leaf slot still returns
`result_success` and appends — the early-abort of the claim happens only at
the points that need the lock.) -/
theorem add_to_node_stale (k fuel : Nat) (ctx : Ctx) (data : Obj)
    (h : ctx.snap.begin_ ≠ ctx.snap.end_) :
    ∀ n r, add_to_node k fuel ctx data n = some r →
      r.1 ≠ .result_split ∧ r.2.2.2 = ctx ∧
      (r.1 = .result_retry → leafList k r.2.1 = leafList k n) := by
  have main : ∀ sz n, sizeOf n ≤ sz → ∀ r,
      add_to_node k fuel ctx data n = some r →
      r.1 ≠ .result_split ∧ r.2.2.2 = ctx ∧
      (r.1 = .result_retry → leafList k r.2.1 = leafList k n) := by
    intro sz
    induction sz with
    | zero =>
      intro n hsz
      have := Node.sizeOf_pos n
      omega
    | succ sz ih =>
      intro n hsz r heq
      cases n with
      | leaf c => rw [add_to_node] at heq; simp at heq
      | internal st cnt child cent lb =>
        rw [add_to_node] at heq
        cases hg0 : child.getD 0 none with
        | none => simp only [hg0] at heq; simp at heq
        | some c0 =>
          simp only [hg0] at heq
          by_cases hl : c0.isleaf
          · simp only [hl, if_true, reduceIte] at heq
            cases hal : add_to_leaf k fuel ctx data
                (.internal st cnt child cent lb) with
            | none => rw [hal] at heq; simp at heq
            | some r' =>
              rw [hal] at heq
              simp at heq
              have hspec := add_to_leaf_stale k fuel ctx data h _ r' hal
              rw [← heq]
              unfold applyMean
              by_cases hret : r'.1 = Result.result_retry
              · rw [if_pos hret]
                exact hspec
              · rw [if_neg hret]
                refine ⟨hspec.1, hspec.2.1, ?_⟩
                intro hco
                exact absurd hco hret
          · simp only [hl, if_false, reduceIte] at heq
            cases hcl : closest k data (.internal st cnt child cent lb) with
            | none => rw [hcl] at heq; simp at heq
            | some best =>
              rw [hcl] at heq
              simp only [] at heq
              cases hgb : child.getD best none with
              | none => rw [hgb] at heq; simp at heq
              | some nb =>
                rw [hgb] at heq
                simp only [] at heq
                cases han : add_to_node k fuel ctx data nb with
                | none => rw [han] at heq; simp at heq
                | some rr =>
                  rw [han] at heq
                  simp only [] at heq
                  have hnb : sizeOf nb ≤ sz := by
                    have := sizeOf_lt_of_slot (mem_of_getD_some hgb) st cnt
                      cent lb
                    omega
                  have hIH := ih nb hnb rr han
                  cases hr1 : rr.1 with
                  | result_split => exact absurd hr1 hIH.1
                  | result_success =>
                    rw [hr1] at heq
                    simp only [] at heq
                    simp at heq
                    rw [← heq]
                    unfold applyMean
                    simp only [reduceIte]
                    refine ⟨by simp, by simp [hIH.2.1], ?_⟩
                    intro hco
                    simp at hco
                  | result_retry =>
                    rw [hr1] at heq
                    simp only [] at heq
                    simp at heq
                    rw [← heq]
                    unfold applyMean
                    simp only [reduceIte]
                    refine ⟨by simp, by simp [hIH.2.1], ?_⟩
                    intro _
                    have hpres := hIH.2.2 hr1
                    simp only [leafList]
                    exact leafSlots_set k (min cnt k) child best hgb hpres
  intro n
  exact main (sizeOf n) n le_rfl

/-- C1 (amended), attempt level: at entry the split counter is snapshotted
into the descent context; when that snapshot has `begin ≠ end` the attempt
can never split (every take_lock fails), the tree's split counter is left
exactly as it was, and a `result_retry` outcome leaves the tree's leaf
multiset unchanged.  An attempt that finds room in a non-full leaf still
returns `result_success`, so the claim's "always aborts with Retry" is
amended to cover exactly the split-needing paths. -/
theorem attempt_push_back_stale (k d fuel : Nat) (t : KTreeState)
    (data : Obj) (h : t.split_count.begin_ ≠ t.split_count.end_) :
    ∀ r, attempt_push_back k d fuel t data = some r →
      r.1 ≠ .result_split ∧ r.2.split_count = t.split_count ∧
      (r.1 = .result_retry → ktreeLeafList k r.2 = ktreeLeafList k t) := by
  intro r heq
  have hstale : (⟨t.split_count, t.split_count⟩ : Ctx).snap.begin_
      ≠ (⟨t.split_count, t.split_count⟩ : Ctx).snap.end_ := h
  rw [attempt_push_back] at heq
  cases ht : t.root with
  | none =>
    rw [ht] at heq
    rw [take_lock_stale hstale] at heq
    simp at heq
    rw [← heq]
    refine ⟨by simp, by simp, ?_⟩
    intro _
    rw [ktreeLeafList, ktreeLeafList, ht]
  | some rt =>
    rw [ht] at heq
    simp only [] at heq
    cases han : add_to_node k fuel ⟨t.split_count, t.split_count⟩ data rt with
    | none => rw [han] at heq; simp at heq
    | some rr =>
      rw [han] at heq
      simp only [] at heq
      have hIH := add_to_node_stale k fuel ⟨t.split_count, t.split_count⟩
        data hstale rt rr han
      cases hr1 : rr.1 with
      | result_split => exact absurd hr1 hIH.1
      | result_success =>
        rw [hr1] at heq
        simp at heq
        rw [← heq]
        refine ⟨by simp, by simp [hIH.2.1], ?_⟩
        intro hco
        simp at hco
      | result_retry =>
        rw [hr1] at heq
        simp at heq
        rw [← heq]
        refine ⟨by simp, by simp [hIH.2.1], ?_⟩
        intro _
        rw [ktreeLeafList, ktreeLeafList, ht]
        simp only []
        exact hIH.2.2 hr1

/-- concrete tree for the C1 counterexample and witness: a root over one
leaf `[5]` with a free slot, and a split counter `(1, 0)` recording a split
in flight elsewhere. -/
def tC1w : KTreeState :=
  ⟨some (.internal .state_unsplit 1 [some (.leaf [5]), none, none] [5] 1),
    ⟨1, 0⟩⟩

/-- the tree after inserting `[7]` into `tC1w`. -/
def nC1w : Node :=
  .internal .state_unsplit 2 [some (.leaf [5]), some (.leaf [7]), none] [6] 2

/-- full evaluation of the C1 insert attempt: the stale-snapshot attempt
appends into the free slot and succeeds. -/
theorem attempt_stale_eval :
    attempt_push_back 2 1 8 tC1w [7]
      = some (.result_success, ⟨some nC1w, ⟨1, 0⟩⟩) := by
  rw [attempt_push_back]
  norm_num [tC1w, nC1w, add_to_node, add_to_leaf, applyMean, meanUpdate,
    Node.isleaf, fused_subtract_divide, List.getD]
  simp

/-- Counterexample to C1 as stated: the attempt on `tC1w` starts with a
snapshot whose `begin = 1 ≠ 0 = end`, yet it returns `result_success`
(after modifying the tree) instead of aborting with `result_retry`. -/
theorem attempt_stale_success :
    (attempt_push_back 2 1 8 tC1w [7]).map (fun r => r.1)
      = some Result.result_success := by
  rw [attempt_stale_eval]
  rfl

/-- Witness for `attempt_push_back_stale` at `tC1w`: the hypotheses hold
concretely and the conclusions follow for the computed outcome. -/
theorem attempt_push_back_stale_witness :
    (tC1w.split_count.begin_ ≠ tC1w.split_count.end_) ∧
    (Result.result_success ≠ Result.result_split ∧
      (⟨some nC1w, ⟨1, 0⟩⟩ : KTreeState).split_count = tC1w.split_count ∧
      (Result.result_success = .result_retry →
        ktreeLeafList 2 ⟨some nC1w, ⟨1, 0⟩⟩ = ktreeLeafList 2 tC1w)) :=
  ⟨by decide, attempt_push_back_stale 2 1 8 tC1w [7] (by decide)
    (.result_success, ⟨some nC1w, ⟨1, 0⟩⟩) attempt_stale_eval⟩

/-! ### C3: the height-balance invariant -/

/-- slot-list uniformity as a membership property. -/
theorem slotsLeavesAt_iff (h : Nat) :
    ∀ l : List (Option Node), slotsLeavesAt l h = true ↔
      (∀ x ∈ l, ∀ n, x = some n → allLeavesAt n h = true) := by
  intro l
  induction l with
  | nil => simp [slotsLeavesAt]
  | cons x xs ihx =>
    cases x with
    | none =>
      rw [slotsLeavesAt]
      rw [ihx]
      constructor
      · intro hh y hy n hn
        rcases List.mem_cons.mp hy with hy | hy
        · rw [hy] at hn; simp at hn
        · exact hh y hy n hn
      · intro hh y hy n hn
        exact hh y (List.mem_cons_of_mem _ hy) n hn
    | some m =>
      rw [slotsLeavesAt]
      simp only [Bool.and_eq_true]
      rw [ihx]
      constructor
      · intro hh y hy n hn
        rcases List.mem_cons.mp hy with hy | hy
        · rw [hy] at hn
          simp at hn
          rw [← hn]
          exact hh.1
        · exact hh.2 y hy n hn
      · intro hh
        exact ⟨hh (some m) (List.mem_cons_self _ _) m rfl,
          fun y hy n hn => hh y (List.mem_cons_of_mem _ hy) n hn⟩

/-- writing a node of the right depth into a slot preserves uniformity. -/
theorem slotsLeavesAt_set {h : Nat} {l : List (Option Node)} {i : Nat}
    {v : Node} (hl : slotsLeavesAt l h = true)
    (hv : allLeavesAt v h = true) :
    slotsLeavesAt (l.set i (some v)) h = true := by
  rw [slotsLeavesAt_iff] at hl ⊢
  intro x hx n hn
  rcases List.mem_or_eq_of_mem_set hx with hx | hx
  · exact hl x hx n hn
  · rw [hx] at hn
    simp at hn
    rw [← hn]
    exact hv

/-- allLeavesAt only looks at the child array of an internal node. -/
theorem allLeavesAt_fields (st st' : SplitState) (cnt cnt' : Nat)
    (child : List (Option Node)) (c c' : Obj) (lb lb' h : Nat) :
    allLeavesAt (.internal st cnt child c lb) h
      = allLeavesAt (.internal st' cnt' child c' lb') h := by
  cases h <;> rfl

/-- compute_mean does not move any leaf. -/
theorem allLeavesAt_compute_mean (k : Nat) (n : Node) (h : Nat) :
    allLeavesAt (compute_mean k n) h = allLeavesAt n h := by
  cases n with
  | leaf c => rfl
  | internal st cnt child c lb =>
    rw [compute_mean]
    exact allLeavesAt_fields _ _ _ _ child _ _ _ _ _

/-- the incremental mean update does not move any leaf. -/
theorem allLeavesAt_meanUpdate (data : Obj) (n : Node) (h : Nat) :
    allLeavesAt (meanUpdate data n) h = allLeavesAt n h := by
  cases n with
  | leaf c => rfl
  | internal st cnt child c lb =>
    rw [meanUpdate]
    exact allLeavesAt_fields _ _ _ _ child _ _ _ _ _

/-- a membership invariant for the distribution loop of node::split: every
slot appended to either accumulator is a slot of the source array (or a
default `none`), so depth-uniformity carries over. -/
theorem distributeLoop_spec (childs : List (Option Node))
    (assignment : List Nat) (k h : Nat)
    (hsrc : slotsLeavesAt childs h = true) :
    ∀ fuel which acc0 acc1, k + 1 - which ≤ fuel →
    slotsLeavesAt acc0 h = true → slotsLeavesAt acc1 h = true →
    slotsLeavesAt (distributeLoop childs assignment k which acc0 acc1).1 h
        = true ∧
    slotsLeavesAt (distributeLoop childs assignment k which acc0 acc1).2 h
        = true := by
  intro fuel
  induction fuel with
  | zero =>
    intro which acc0 acc1 hf h0 h1
    have hw : ¬ which ≤ k := by omega
    have hre : distributeLoop childs assignment k which acc0 acc1
        = (acc0, acc1) := by
      rw [distributeLoop]
      simp only [hw, if_false]
    rw [hre]
    exact ⟨h0, h1⟩
  | succ fl ih =>
    intro which acc0 acc1 hf h0 h1
    by_cases hw : which ≤ k
    · have hslot : ∀ n, childs.getD which none = some n →
          allLeavesAt n h = true := by
        intro n hn
        exact (slotsLeavesAt_iff h childs).mp hsrc _ (mem_of_getD_some hn)
          n rfl
      have happ : ∀ acc : List (Option Node), slotsLeavesAt acc h = true →
          slotsLeavesAt (acc ++ [childs.getD which none]) h = true := by
        intro acc hacc
        rw [slotsLeavesAt_iff] at hacc ⊢
        intro x hx n hn
        rcases List.mem_append.mp hx with hx | hx
        · exact hacc x hx n hn
        · simp at hx
          rw [hx] at hn
          rw [← List.getD_eq_getElem?_getD] at hn
          exact hslot n hn
      by_cases ha : assignment.getD which 0 = 0
      · have hre : distributeLoop childs assignment k which acc0 acc1
            = distributeLoop childs assignment k (which + 1)
              (acc0 ++ [childs.getD which none]) acc1 := by
          rw [distributeLoop]
          simp only [hw, if_true, ha, reduceIte]
        rw [hre]
        exact ih (which + 1) _ _ (by omega) (happ acc0 h0) h1
      · have hre : distributeLoop childs assignment k which acc0 acc1
            = distributeLoop childs assignment k (which + 1) acc0
              (acc1 ++ [childs.getD which none]) := by
          rw [distributeLoop]
          simp only [hw, if_true, ha, reduceIte]
        rw [hre]
        exact ih (which + 1) _ _ (by omega) h0 (happ acc1 h1)
    · have hre : distributeLoop childs assignment k which acc0 acc1
          = (acc0, acc1) := by
        rw [distributeLoop]
        simp only [hw, if_false]
      rw [hre]
      exact ⟨h0, h1⟩

/-- the same membership invariant for the alternating fallback loop. -/
theorem alternateLoop_spec (childs : List (Option Node)) (k h : Nat)
    (hsrc : slotsLeavesAt childs h = true) :
    ∀ fuel which acc0 acc1, k + 1 - which ≤ fuel →
    slotsLeavesAt acc0 h = true → slotsLeavesAt acc1 h = true →
    slotsLeavesAt (alternateLoop childs k which acc0 acc1).1 h = true ∧
    slotsLeavesAt (alternateLoop childs k which acc0 acc1).2 h = true := by
  intro fuel
  induction fuel with
  | zero =>
    intro which acc0 acc1 hf h0 h1
    have hw : ¬ which ≤ k := by omega
    have hre : alternateLoop childs k which acc0 acc1 = (acc0, acc1) := by
      rw [alternateLoop]
      simp only [hw, if_false]
    rw [hre]
    exact ⟨h0, h1⟩
  | succ fl ih =>
    intro which acc0 acc1 hf h0 h1
    by_cases hw : which ≤ k
    · have happ : ∀ acc : List (Option Node), slotsLeavesAt acc h = true →
          slotsLeavesAt (acc ++ [childs.getD which none]) h = true := by
        intro acc hacc
        rw [slotsLeavesAt_iff] at hacc ⊢
        intro x hx n hn
        rcases List.mem_append.mp hx with hx | hx
        · exact hacc x hx n hn
        · simp at hx
          rw [hx] at hn
          rw [← List.getD_eq_getElem?_getD] at hn
          exact (slotsLeavesAt_iff h childs).mp hsrc _
            (mem_of_getD_some hn) n rfl
      by_cases ha : which % 2 = 0
      · have hre : alternateLoop childs k which acc0 acc1
            = alternateLoop childs k (which + 1)
              (acc0 ++ [childs.getD which none]) acc1 := by
          rw [alternateLoop]
          simp only [hw, if_true, ha, reduceIte]
        rw [hre]
        exact ih (which + 1) _ _ (by omega) (happ acc0 h0) h1
      · have hre : alternateLoop childs k which acc0 acc1
            = alternateLoop childs k (which + 1) acc0
              (acc1 ++ [childs.getD which none]) := by
          rw [alternateLoop]
          simp only [hw, if_true, ha, reduceIte]
        rw [hre]
        exact ih (which + 1) _ _ (by omega) h0 (happ acc1 h1)
    · have hre : alternateLoop childs k which acc0 acc1 = (acc0, acc1) := by
        rw [alternateLoop]
        simp only [hw, if_false]
      rw [hre]
      exact ⟨h0, h1⟩

/-- appending a none-padding preserves uniformity. -/
theorem slotsLeavesAt_append_replicate {h : Nat} {l : List (Option Node)}
    (hl : slotsLeavesAt l h = true) (m : Nat) :
    slotsLeavesAt (l ++ List.replicate m none) h = true := by
  rw [slotsLeavesAt_iff] at hl ⊢
  intro x hx n hn
  rcases List.mem_append.mp hx with hx | hx
  · exact hl x hx n hn
  · have := List.eq_of_mem_replicate hx
    rw [this] at hn
    simp at hn

/-- the 4-argument node::split keeps every leaf of the split node at its
depth: both out-nodes sit at the level of the split node. -/
theorem split4_balanced (k fuel : Nat) (st : SplitState) (cnt : Nat)
    (childs : List (Option Node)) (cent : Obj) (lb h initial : Nat)
    (hsrc : slotsLeavesAt childs h = true) :
    ∀ r, split4 k fuel (.internal st cnt childs cent lb) initial = some r →
      allLeavesAt r.2.1 (h + 1) = true ∧ allLeavesAt r.2.2 (h + 1) = true := by
  intro r heq
  rw [split4] at heq
  simp only [] at heq
  cases hsi : splitInit k childs initial with
  | none => rw [hsi] at heq; simp at heq
  | some init =>
    rw [hsi] at heq
    simp only [] at heq
    cases hel : elkanLoop k cent.length childs fuel flt_max (flt_max / 2)
        init.1 init.2.1 0 0 ⟨List.replicate (k + 1) 0,
          List.replicate (k + 1) flt_max, List.replicate (k + 1) 0, 0, 0, 0⟩ with
    | none => rw [hel] at heq; simp at heq
    | some stf =>
      rw [hel] at heq
      simp only [] at heq
      have hdist := distributeLoop_spec childs stf.assignment k h hsrc
        (k + 1) 0 [] [] (by omega) (by rw [slotsLeavesAt]) (by rw [slotsLeavesAt])
      simp at heq
      rw [← heq]
      constructor
      · rw [allLeavesAt]
        exact slotsLeavesAt_append_replicate hdist.1 _
      · rw [allLeavesAt]
        exact slotsLeavesAt_append_replicate hdist.2 _

/-- the 2-argument node::split (including the alternating fallback, whose
out-arrays keep stale but same-depth slots beyond the rewritten region)
also keeps every leaf at its depth. -/
theorem split2_balanced (k fuel : Nat) (st : SplitState) (cnt : Nat)
    (childs : List (Option Node)) (cent : Obj) (lb h : Nat)
    (hsrc : slotsLeavesAt childs h = true) :
    ∀ c1 c2, split2 k fuel (.internal st cnt childs cent lb) = some (c1, c2) →
      allLeavesAt c1 (h + 1) = true ∧ allLeavesAt c2 (h + 1) = true := by
  intro c1 c2 heq
  rw [split2] at heq
  by_cases hspin : allSomeUpTo childs k
  · simp only [hspin, if_true, reduceIte] at heq
    cases hs4 : split4 k fuel (.internal st cnt childs cent lb) 0 with
    | none => rw [hs4] at heq; simp at heq
    | some r =>
      rw [hs4] at heq
      simp only [] at heq
      have hbal := split4_balanced k fuel st cnt childs cent lb h 0 hsrc r hs4
      by_cases hflag : r.1 = true
      · simp only [hflag, if_true, reduceIte] at heq
        simp at heq
        have hc1 : r.2.1 = c1 := by rw [heq]
        have hc2 : r.2.2 = c2 := by rw [heq]
        rw [← hc1, ← hc2]
        exact hbal
      · simp only [hflag, reduceIte] at heq
        simp at heq
        have halt := alternateLoop_spec childs k h hsrc (k + 1) 0 [] []
          (by omega) (by rw [slotsLeavesAt]) (by rw [slotsLeavesAt])
        have hold1 : slotsLeavesAt r.2.1.childArray h = true := by
          cases hr1 : r.2.1 with
          | leaf c =>
            rw [Node.childArray]
            rw [slotsLeavesAt]
          | internal st1 cnt1 ch1 c1x lb1 =>
            rw [Node.childArray]
            have := hbal.1
            rw [hr1] at this
            rw [allLeavesAt] at this
            exact this
        have hold2 : slotsLeavesAt r.2.2.childArray h = true := by
          cases hr2 : r.2.2 with
          | leaf c =>
            rw [Node.childArray]
            rw [slotsLeavesAt]
          | internal st2 cnt2 ch2 c2x lb2 =>
            rw [Node.childArray]
            have := hbal.2
            rw [hr2] at this
            rw [allLeavesAt] at this
            exact this
        have hover : ∀ (old new : List (Option Node)),
            slotsLeavesAt old h = true → slotsLeavesAt new h = true →
            slotsLeavesAt (overwriteSlots old new) h = true := by
          intro old new hold hnew
          rw [overwriteSlots]
          rw [slotsLeavesAt_iff] at hold hnew ⊢
          intro x hx n hn
          rcases List.mem_append.mp hx with hx | hx
          · exact hnew x hx n hn
          · exact hold x (List.mem_of_mem_drop hx) n hn
        rw [← heq.1, ← heq.2]
        constructor
        · rw [allLeavesAt]
          exact hover _ _ hold1 halt.1
        · rw [allLeavesAt]
          exact hover _ _ hold2 halt.2
  · simp only [hspin, if_false, reduceIte] at heq
    simp at heq

/-- add_to_leaf on a leaf-parent (all leaves one level down) keeps every
leaf one level down, in the returned node as well as in both out-nodes of a
split. -/
theorem add_to_leaf_balanced (k fuel : Nat) (ctx : Ctx) (data : Obj)
    (st : SplitState) (cnt : Nat) (child : List (Option Node)) (cent : Obj)
    (lb : Nat) (hbal : allLeavesAt (.internal st cnt child cent lb) 1 = true) :
    ∀ r, add_to_leaf k fuel ctx data (.internal st cnt child cent lb)
        = some r →
      allLeavesAt r.2.1 1 = true ∧
      (∀ c1 c2, r.2.2.1 = some (c1, c2) →
        allLeavesAt c1 1 = true ∧ allLeavesAt c2 1 = true) := by
  intro r heq
  rw [allLeavesAt] at hbal
  rw [add_to_leaf] at heq
  by_cases hc : cnt < k
  · simp only [hc, if_true, reduceIte] at heq
    simp at heq
    rw [← heq]
    refine ⟨?_, ?_⟩
    · rw [allLeavesAt]
      exact slotsLeavesAt_set hbal rfl
    · intro c1 c2 hco
      simp at hco
  · by_cases hst : st = SplitState.state_unsplit
    · subst hst
      simp only [hc, if_false, reduceIte] at heq
      by_cases hlk : (take_lock ctx).1 = true
      · simp only [hlk, if_true, reduceIte] at heq
        have hslots : slotsLeavesAt (child.set k (some (.leaf data))) 0
            = true := slotsLeavesAt_set hbal rfl
        cases hsp : split2 k fuel (.internal .state_split (cnt + 1)
            (child.set k (some (.leaf data))) cent lb) with
        | none => rw [hsp] at heq; simp at heq
        | some p =>
          rw [hsp] at heq
          simp at heq
          rw [← heq]
          refine ⟨?_, ?_⟩
          · rw [allLeavesAt]
            exact hslots
          · intro c1 c2 hco
            simp at hco
            have hb := split2_balanced k fuel .state_split (cnt + 1)
              (child.set k (some (.leaf data))) cent lb 0 hslots p.1 p.2
              (by rw [hsp])
            rw [← hco.1, ← hco.2]
            rw [allLeavesAt_compute_mean, allLeavesAt_compute_mean]
            exact hb
      · simp only [hlk, reduceIte] at heq
        simp at heq
        rw [← heq]
        refine ⟨?_, ?_⟩
        · rw [allLeavesAt]
          exact hbal
        · intro c1 c2 hco
          simp at hco
    · simp only [hc, if_false, hst, reduceIte] at heq
      simp at heq
      rw [← heq]
      refine ⟨?_, ?_⟩
      · rw [allLeavesAt]
        exact hbal
      · intro c1 c2 hco
        simp at hco

/-- C3's inductive core: an insert step below a node with all leaves `h`
levels down returns a node with all leaves `h` levels down, and any split
pair it hands up consists of two nodes with all leaves `h` levels down. -/
theorem add_to_node_balanced (k fuel : Nat) (ctx : Ctx) (data : Obj) :
    ∀ n h r, allLeavesAt n h = true →
      add_to_node k fuel ctx data n = some r →
      allLeavesAt r.2.1 h = true ∧
      (∀ c1 c2, r.2.2.1 = some (c1, c2) →
        allLeavesAt c1 h = true ∧ allLeavesAt c2 h = true) := by
  have main : ∀ sz n, sizeOf n ≤ sz → ∀ h r, allLeavesAt n h = true →
      add_to_node k fuel ctx data n = some r →
      allLeavesAt r.2.1 h = true ∧
      (∀ c1 c2, r.2.2.1 = some (c1, c2) →
        allLeavesAt c1 h = true ∧ allLeavesAt c2 h = true) := by
    intro sz
    induction sz with
    | zero =>
      intro n hsz
      have := Node.sizeOf_pos n
      omega
    | succ sz ih =>
      intro n hsz h r hbal heq
      cases n with
      | leaf c => rw [add_to_node] at heq; simp at heq
      | internal st cnt child cent lb =>
        cases h with
        | zero => rw [allLeavesAt] at hbal; simp at hbal
        | succ h =>
          have hslots : slotsLeavesAt child h = true := by
            rw [allLeavesAt] at hbal
            exact hbal
          rw [add_to_node] at heq
          cases hg0 : child.getD 0 none with
          | none => simp only [hg0] at heq; simp at heq
          | some c0 =>
            simp only [hg0] at heq
            have hc0 : allLeavesAt c0 h = true :=
              (slotsLeavesAt_iff h child).mp hslots _
                (mem_of_getD_some hg0) c0 rfl
            by_cases hl : c0.isleaf
            · have hzero : h = 0 := by
                cases c0 with
                | leaf cc =>
                  rw [allLeavesAt] at hc0
                  simpa using hc0
                | internal s1 c1 ch1 ce1 l1 => rw [Node.isleaf] at hl; simp at hl
              subst hzero
              simp only [hl, if_true, reduceIte] at heq
              cases hal : add_to_leaf k fuel ctx data
                  (.internal st cnt child cent lb) with
              | none => rw [hal] at heq; simp at heq
              | some r' =>
                rw [hal] at heq
                simp at heq
                have hspec := add_to_leaf_balanced k fuel ctx data st cnt
                  child cent lb (by rw [allLeavesAt]; exact hslots) r' hal
                rw [← heq]
                unfold applyMean
                by_cases hret : r'.1 = Result.result_retry
                · rw [if_pos hret]
                  exact hspec
                · rw [if_neg hret]
                  refine ⟨?_, hspec.2⟩
                  rw [allLeavesAt_meanUpdate]
                  exact hspec.1
            · simp only [hl, if_false, reduceIte] at heq
              cases hcl : closest k data (.internal st cnt child cent lb) with
              | none => rw [hcl] at heq; simp at heq
              | some best =>
                rw [hcl] at heq
                simp only [] at heq
                cases hgb : child.getD best none with
                | none => rw [hgb] at heq; simp at heq
                | some nb =>
                  rw [hgb] at heq
                  simp only [] at heq
                  cases han : add_to_node k fuel ctx data nb with
                  | none => rw [han] at heq; simp at heq
                  | some rr =>
                    rw [han] at heq
                    simp only [] at heq
                    have hnb : sizeOf nb ≤ sz := by
                      have := sizeOf_lt_of_slot (mem_of_getD_some hgb) st cnt
                        cent lb
                      omega
                    have hnbbal : allLeavesAt nb h = true :=
                      (slotsLeavesAt_iff h child).mp hslots _
                        (mem_of_getD_some hgb) nb rfl
                    have hIH := ih nb hnb h rr hnbbal han
                    cases hr1 : rr.1 with
                    | result_split =>
                      rw [hr1] at heq
                      cases hpair : rr.2.2.1 with
                      | none =>
                        rw [hpair] at heq
                        exact Option.noConfusion heq
                      | some pair =>
                        rw [hpair] at heq
                        simp only [] at heq
                        have hps := hIH.2 pair.1 pair.2 (by rw [hpair])
                        have hset1 : slotsLeavesAt
                            ((child.set best (some pair.1)).set cnt
                              (some pair.2)) h = true :=
                          slotsLeavesAt_set (slotsLeavesAt_set hslots hps.1)
                            hps.2
                        by_cases hover : cnt + 1 > k
                        · simp only [hover, if_true, reduceIte] at heq
                          cases hsp : split2 k fuel (.internal st (cnt + 1)
                              ((child.set best (some pair.1)).set cnt
                                (some pair.2)) cent lb) with
                          | none => rw [hsp] at heq; simp at heq
                          | some p2 =>
                            rw [hsp] at heq
                            simp at heq
                            rw [← heq]
                            unfold applyMean
                            rw [if_neg (by simp)]
                            have hb2 := split2_balanced k fuel st (cnt + 1)
                              ((child.set best (some pair.1)).set cnt
                                (some pair.2)) cent lb h hset1 p2.1 p2.2
                              (by rw [hsp])
                            refine ⟨?_, ?_⟩
                            · rw [allLeavesAt_meanUpdate, allLeavesAt]
                              exact hset1
                            · intro c1 c2 hco
                              simp at hco
                              rw [← hco.1, ← hco.2]
                              rw [allLeavesAt_compute_mean,
                                allLeavesAt_compute_mean]
                              exact hb2
                        · simp only [hover, reduceIte] at heq
                          simp at heq
                          rw [← heq]
                          unfold applyMean
                          rw [if_neg (by simp)]
                          refine ⟨?_, ?_⟩
                          · rw [allLeavesAt_meanUpdate, allLeavesAt]
                            exact hset1
                          · intro c1 c2 hco
                            simp at hco
                    | result_success =>
                      rw [hr1] at heq
                      simp only [] at heq
                      simp at heq
                      rw [← heq]
                      unfold applyMean
                      rw [if_neg (by simp)]
                      refine ⟨?_, ?_⟩
                      · rw [allLeavesAt_meanUpdate, allLeavesAt]
                        exact slotsLeavesAt_set hslots hIH.1
                      · intro c1 c2 hco
                        simp at hco
                    | result_retry =>
                      rw [hr1] at heq
                      simp only [] at heq
                      simp at heq
                      rw [← heq]
                      unfold applyMean
                      rw [if_pos rfl]
                      refine ⟨?_, ?_⟩
                      · rw [allLeavesAt]
                        exact slotsLeavesAt_set hslots hIH.1
                      · intro c1 c2 hco
                        simp at hco
  intro n
  exact main (sizeOf n) n le_rfl

/-- all leaves of the tree sit at one common depth `h` below the root. -/
def treeLeavesAt (t : KTreeState) (h : Nat) : Bool :=
  match t.root with
  | none => true
  | some rt => allLeavesAt rt h

/-- C3 (confirmed): an insert attempt on a height-balanced tree leaves a
height-balanced tree, whatever its outcome: a split at any level replaces
one node by two nodes carrying the original children at their original
depth, and the new-root path adds one level above every leaf at once. -/
theorem attempt_push_back_balanced (k d fuel : Nat) (t : KTreeState)
    (data : Obj) (h : Nat) (hbal : treeLeavesAt t h = true) :
    ∀ r, attempt_push_back k d fuel t data = some r →
      ∃ h', treeLeavesAt r.2 h' = true := by
  intro r heq
  rw [attempt_push_back] at heq
  cases ht : t.root with
  | none =>
    rw [ht] at heq
    by_cases hlk : (take_lock ⟨t.split_count, t.split_count⟩).1 = true
    · simp only [hlk, if_true, reduceIte] at heq
      simp at heq
      rw [← heq]
      refine ⟨1, ?_⟩
      rw [treeLeavesAt]
      simp only []
      rw [allLeavesAt_compute_mean, allLeavesAt]
      rw [slotsLeavesAt]
      refine (by
        simp only [Bool.and_eq_true]
        exact ⟨rfl, @slotsLeavesAt_append_replicate _ [] (by rw [slotsLeavesAt]) k⟩)
    · simp only [hlk, reduceIte] at heq
      simp at heq
      rw [← heq]
      exact ⟨0, by rw [treeLeavesAt]⟩
  | some rt =>
    rw [ht] at heq
    simp only [] at heq
    have hrt : allLeavesAt rt h = true := by
      rw [treeLeavesAt, ht] at hbal
      exact hbal
    cases han : add_to_node k fuel ⟨t.split_count, t.split_count⟩ data rt with
    | none => rw [han] at heq; simp at heq
    | some rr =>
      rw [han] at heq
      simp only [] at heq
      have hIH := add_to_node_balanced k fuel ⟨t.split_count, t.split_count⟩
        data rt h rr hrt han
      cases hr1 : rr.1 with
      | result_split =>
        rw [hr1] at heq
        cases hpair : rr.2.2.1 with
        | none =>
          rw [hpair] at heq
          exact Option.noConfusion heq
        | some pair =>
          rw [hpair] at heq
          simp at heq
          rw [← heq]
          have hps := hIH.2 pair.1 pair.2 (by rw [hpair])
          refine ⟨h + 1, ?_⟩
          rw [treeLeavesAt]
          simp only []
          rw [allLeavesAt_compute_mean, allLeavesAt]
          rw [slotsLeavesAt, slotsLeavesAt]
          simp only [Bool.and_eq_true]
          refine ⟨by rw [allLeavesAt_compute_mean]; exact hps.1,
            by rw [allLeavesAt_compute_mean]; exact hps.2,
            @slotsLeavesAt_append_replicate _ [] (by rw [slotsLeavesAt]) _⟩
      | result_success =>
        rw [hr1] at heq
        simp at heq
        rw [← heq]
        refine ⟨h, ?_⟩
        rw [treeLeavesAt]
        simp only []
        exact hIH.1
      | result_retry =>
        rw [hr1] at heq
        simp at heq
        rw [← heq]
        refine ⟨h, ?_⟩
        rw [treeLeavesAt]
        simp only []
        exact hIH.1

/-- concrete balanced tree for the C3 witness (no split in flight). -/
def tC3w : KTreeState :=
  ⟨some (.internal .state_unsplit 1 [some (.leaf [5]), none, none] [5] 1),
    ⟨0, 0⟩⟩

/-- evaluation of the C3 witness insert. -/
theorem attempt_balanced_eval :
    attempt_push_back 2 1 8 tC3w [7]
      = some (.result_success, ⟨some nC1w, ⟨0, 0⟩⟩) := by
  rw [attempt_push_back]
  norm_num [tC3w, nC1w, add_to_node, add_to_leaf, applyMean, meanUpdate,
    Node.isleaf, fused_subtract_divide, List.getD]
  simp

/-- Witness for `attempt_push_back_balanced`: inserting `[7]` into the
balanced one-leaf tree yields a tree with every leaf at a common depth. -/
theorem attempt_push_back_balanced_witness :
    (treeLeavesAt tC3w 1 = true) ∧
    (∃ h', treeLeavesAt (⟨some nC1w, ⟨0, 0⟩⟩ : KTreeState) h' = true) :=
  ⟨by decide, attempt_push_back_balanced 2 1 8 tC3w [7] 1 (by decide)
    (.result_success, ⟨some nC1w, ⟨0, 0⟩⟩) attempt_balanced_eval⟩

/-! ### C4: serialisation round-trip -/

mutual

/-- well-formedness of a quiescent tree as serialised: every internal node
has between 1 and `max_children` children, a full `max_children + 1` slot
array whose first `children` slots are non-null and well-formed, and every
centroid has the tree's dimensionality.  (Final trees satisfy this: a
partially full node keeps `children ≤ max_children`, and every node that
was ever over-full was split and replaced before its lock was released.) -/
def wfC4 (k d : Nat) : Node → Bool
  | .leaf c => decide (c.length = d)
  | .internal _ cnt child c _ =>
    decide (1 ≤ cnt) && decide (cnt ≤ k) && decide (child.length = k + 1) &&
      decide (c.length = d) && wfSlots k d cnt child

/-- the first `m` slots are non-null and well-formed. -/
def wfSlots (k d : Nat) : Nat → List (Option Node) → Bool
  | 0, _ => true
  | _ + 1, [] => false
  | _ + 1, none :: _ => false
  | m + 1, some n :: rest => wfC4 k d n && wfSlots k d m rest

end

mutual

/-- observable structural equality of two trees: the data model's notion,
comparing the clamped child count, centroid and leaf count of every node
and recursing through the observable (clamped) children; the split latch
and the slots beyond the clamped count (stale after a fallback split,
unobservable by every traversal) are not part of the model. -/
def obsEq (k : Nat) : Node → Node → Bool
  | .leaf c, .leaf c2 => decide (c = c2)
  | .internal _ cnt ch c lb, .internal _ cnt2 ch2 c2 lb2 =>
    decide (min cnt k = min cnt2 k) && decide (c = c2) && decide (lb = lb2)
      && obsSlots k (min cnt k) ch ch2
  | _, _ => false

/-- pairwise observable equality of the first `m` slots (which must be
non-null on both sides). -/
def obsSlots (k : Nat) : Nat → List (Option Node) → List (Option Node) → Bool
  | 0, _, _ => true
  | m + 1, some a :: as1, some b :: bs => obsEq k a b && obsSlots k m as1 bs
  | _ + 1, _, _ => false

end

mutual

/-- number of nodes visited by the serialising traversal. -/
def nodeCount (k : Nat) : Node → Nat
  | .leaf _ => 1
  | .internal _ cnt child _ _ => 1 + slotsNodeCount k (min cnt k) child

/-- node count over the first `m` slots. -/
def slotsNodeCount (k : Nat) : Nat → List (Option Node) → Nat
  | 0, _ => 0
  | _ + 1, [] => 0
  | m + 1, none :: rest => slotsNodeCount k m rest
  | m + 1, some n :: rest => nodeCount k n + slotsNodeCount k m rest

end

/-- a `nat` token at the head is consumed exactly. -/
theorem readNat_cons (x : Nat) (l : List Token) :
    readNat ⟨Token.nat x :: l, false⟩ = (x, ⟨l, false⟩) := rfl

/-- the coordinate loop reads back exactly the rendered coordinates. -/
theorem readVec_exact (c : Obj) :
    ∀ rest, readVec c.length ⟨c.map Token.num ++ rest, false⟩
      = (c, ⟨rest, false⟩) := by
  induction c with
  | nil => intro rest; rfl
  | cons q qs ih =>
    intro rest
    rw [List.length_cons]
    rw [readVec]
    simp only [List.map_cons, List.cons_append]
    have hq : readQ ⟨Token.num q :: (qs.map Token.num ++ rest), false⟩
        = (q, ⟨qs.map Token.num ++ rest, false⟩) := rfl
    rw [hq]
    simp only [ih rest]

/-- every node is counted at least once. -/
theorem nodeCount_pos (k : Nat) (n : Node) : 1 ≤ nodeCount k n := by
  cases n with
  | leaf c => rw [nodeCount]
  | internal st cnt child c lb => rw [nodeCount]; omega

/-- the node count never exceeds the token count of the rendering (each
node contributes at least its two counter tokens). -/
theorem nodeCount_le_render (k : Nat) :
    ∀ sz n, sizeOf n ≤ sz → nodeCount k n ≤ (render k n).length := by
  intro sz
  induction sz with
  | zero =>
    intro n hsz
    have := Node.sizeOf_pos n
    omega
  | succ sz ih =>
    intro n hsz
    cases n with
    | leaf c =>
      rw [nodeCount, render]
      simp
    | internal st cnt child cent lb =>
      rw [nodeCount, render]
      have hslots : ∀ m (l : List (Option Node)),
          (∀ x ∈ l, ∀ nn, x = some nn → sizeOf nn ≤ sz) →
          slotsNodeCount k m l ≤ (renderSlots k m l).length := by
        intro m
        induction m with
        | zero => intro l _; rw [slotsNodeCount, renderSlots]; simp
        | succ m ihm =>
          intro l hl
          cases l with
          | nil => rw [slotsNodeCount, renderSlots]; simp
          | cons x rest =>
            cases x with
            | none =>
              rw [slotsNodeCount, renderSlots]
              exact ihm rest (fun y hy nn hnn =>
                hl y (List.mem_cons_of_mem _ hy) nn hnn)
            | some nn =>
              rw [slotsNodeCount, renderSlots]
              rw [List.length_append]
              have h1 := ih nn (hl (some nn) (List.mem_cons_self _ _) nn rfl)
              have h2 := ihm rest (fun y hy mm hmm =>
                hl y (List.mem_cons_of_mem _ hy) mm hmm)
              omega
      have hmem : ∀ x ∈ child, ∀ nn, x = some nn → sizeOf nn ≤ sz := by
        intro x hx nn hnn
        have hx' : some nn ∈ child := hnn ▸ hx
        have := sizeOf_lt_of_slot hx' st cnt cent lb
        omega
      have := hslots (min cnt k) child hmem
      simp only [List.length_cons, List.length_append, List.length_map]
      omega

/-- round-trip core: deserialising the rendering of a well-formed tree
consumes exactly the rendered tokens and yields a tree observably equal to
the original with an identical re-rendering. -/
theorem deser_render (k d : Nat) :
    ∀ sz n, sizeOf n ≤ sz → wfC4 k d n = true → ∀ rest fuel,
      nodeCount k n < fuel →
      ∃ u, deserialise k d fuel ⟨render k n ++ rest, false⟩
          = some (u, ⟨rest, false⟩) ∧ obsEq k u n = true ∧
        render k u = render k n := by
  intro sz
  induction sz with
  | zero =>
    intro n hsz
    have := Node.sizeOf_pos n
    omega
  | succ sz ih =>
    intro n hsz hwf rest fuel hfuel
    cases fuel with
    | zero =>
      have := nodeCount_pos k n
      omega
    | succ fl =>
      cases n with
      | leaf c =>
        rw [wfC4] at hwf
        simp only [decide_eq_true_eq] at hwf
        have hrv := readVec_exact c rest
        rw [hwf] at hrv
        refine ⟨.leaf c, ?_, ?_, rfl⟩
        · rw [render]
          rw [deserialise]
          simp only [List.cons_append, readNat_cons]
          simp only [reduceIte]
          rw [hrv]
        · rw [obsEq]
          simp
      | internal st cnt child cent lb =>
        rw [wfC4] at hwf
        simp only [Bool.and_eq_true, decide_eq_true_eq] at hwf
        obtain ⟨⟨⟨⟨h1, hk⟩, hlc⟩, hld⟩, hwfs⟩ := hwf
        have hmin : min cnt k = cnt := Nat.min_eq_left hk
        have hslots : ∀ m child', wfSlots k d m child' = true →
            (∀ x ∈ child', ∀ nn, x = some nn → sizeOf nn ≤ sz) →
            ∀ rest' fuel', slotsNodeCount k m child' < fuel' →
            ∃ us, deserialiseChildren k d fuel' m
                ⟨renderSlots k m child' ++ rest', false⟩
                = some (us, ⟨rest', false⟩) ∧ us.length = m ∧
              (∀ pad, obsSlots k m (us.map some ++ pad) child' = true) ∧
              (∀ pad, renderSlots k m (us.map some ++ pad)
                = renderSlots k m child') := by
          intro m
          induction m with
          | zero =>
            intro child' _ _ rest' fuel' _
            have hrs : renderSlots k 0 child' = [] := by
              rw [renderSlots.eq_def]
            have hdc : deserialiseChildren k d fuel' 0 ⟨rest', false⟩
                = some ([], ⟨rest', false⟩) := by
              rw [deserialiseChildren.eq_def]
            refine ⟨[], ?_, rfl, ?_, ?_⟩
            · rw [hrs]
              simp only [List.nil_append]
              exact hdc
            · intro pad
              rw [obsSlots.eq_def]
            · intro pad
              rw [hrs, renderSlots.eq_def]
          | succ m ihm =>
            intro child' hwf' hsz' rest' fuel' hf'
            cases child' with
            | nil => rw [wfSlots] at hwf'; simp at hwf'
            | cons x restl =>
              cases x with
              | none => rw [wfSlots] at hwf'; simp at hwf'
              | some nn =>
                rw [wfSlots] at hwf'
                simp only [Bool.and_eq_true] at hwf'
                rw [slotsNodeCount] at hf'
                have hnc := nodeCount_pos k nn
                have hsznn : sizeOf nn ≤ sz :=
                  hsz' (some nn) (List.mem_cons_self _ _) nn rfl
                obtain ⟨u, hu, huo, hur⟩ := ih nn hsznn hwf'.1
                  (renderSlots k m restl ++ rest') fuel' (by omega)
                obtain ⟨us, hus, husl, huso, husr⟩ := ihm restl hwf'.2
                  (fun y hy mm hmm => hsz' y (List.mem_cons_of_mem _ hy) mm hmm)
                  rest' fuel' (by omega)
                refine ⟨u :: us, ?_, by simp [husl], ?_, ?_⟩
                · cases fuel' with
                  | zero => omega
                  | succ fl' =>
                    rw [deserialiseChildren]
                    rw [renderSlots]
                    rw [List.append_assoc]
                    rw [hu]
                    simp only []
                    rw [hus]
                · intro pad
                  rw [List.map_cons, List.cons_append, obsSlots]
                  simp only [Bool.and_eq_true]
                  exact ⟨huo, huso pad⟩
                · intro pad
                  rw [List.map_cons, List.cons_append, renderSlots,
                    renderSlots]
                  rw [hur, husr pad]
        have hmem : ∀ x ∈ child, ∀ nn, x = some nn → sizeOf nn ≤ sz := by
          intro x hx nn hnn
          have hx' : some nn ∈ child := hnn ▸ hx
          have := sizeOf_lt_of_slot hx' st cnt cent lb
          omega
        rw [nodeCount, hmin] at hfuel
        obtain ⟨us, hus, husl, huso, husr⟩ := hslots cnt child
          (hmin ▸ hwfs) hmem rest fl (by omega)
        have hne : ¬ (cnt = 0) := by omega
        have hgt : ¬ (cnt > k + 1) := by omega
        have hrv := readVec_exact cent (renderSlots k cnt child ++ rest)
        rw [hld] at hrv
        refine ⟨.internal .state_unsplit cnt
          (us.map some ++ List.replicate (k + 1 - cnt) none) cent lb,
          ?_, ?_, ?_⟩
        · rw [render, hmin]
          rw [deserialise]
          simp only [List.cons_append, readNat_cons]
          rw [List.append_assoc]
          simp only [hne, reduceIte, hgt]
          rw [hrv]
          simp only []
          rw [hus]
        · rw [obsEq]
          rw [hmin]
          simp [huso (List.replicate (k + 1 - cnt) none)]
        · rw [render, render, hmin]
          rw [husr]

/-- C4 (confirmed): for every well-formed quiescent tree, k_tree::deserialise
applied to the k_tree::text_render stream consumes the whole stream and
reconstructs a tree observably equal to the original on every field of the
data model (counts, leaf counts, centroids — exact in this embedding — and
the clamped child structure), and re-serialising the reconstruction yields
a byte-identical stream. -/
theorem ktree_roundtrip (k d : Nat) (rt : Node) (hwf : wfC4 k d rt = true) :
    ∃ u, ktreeDeserialise k d ⟨ktreeRender k (some rt), false⟩
        = some (u, ⟨[], false⟩) ∧ obsEq k u rt = true ∧
      ktreeRender k (some u) = ktreeRender k (some rt) := by
  have hcnt : nodeCount k rt < (render k rt).length + 1 := by
    have := nodeCount_le_render k (sizeOf rt) rt le_rfl
    omega
  obtain ⟨u, hu, huo, hur⟩ := deser_render k d (sizeOf rt) rt le_rfl hwf []
    ((render k rt).length + 1) hcnt
  rw [List.append_nil] at hu
  refine ⟨u, ?_, huo, ?_⟩
  · rw [ktreeDeserialise]
    simp only [ktreeRender]
    exact hu
  · rw [ktreeRender, ktreeRender]
    exact hur

/-- concrete tree for the round-trip witness. -/
def rtC4w : Node :=
  .internal .state_unsplit 2 [some (.leaf [3]), some (.leaf [5]), none] [4] 2

/-- Witness for `ktree_roundtrip` at `k = 2`, `d = 1`. -/
theorem ktree_roundtrip_witness :
    (wfC4 2 1 rtC4w = true) ∧
    (∃ u, ktreeDeserialise 2 1 ⟨ktreeRender 2 (some rtC4w), false⟩
        = some (u, ⟨[], false⟩) ∧ obsEq 2 u rtC4w = true ∧
      ktreeRender 2 (some u) = ktreeRender 2 (some rtC4w)) :=
  ⟨by decide, ktree_roundtrip 2 1 rtC4w (by decide)⟩

/-! ### C9 and C10: malformed input and the unchecked children_count -/

/-- the natural number a field yields under `stream >> size_t` when it is
the next token of a healthy stream (0 for a malformed field). -/
def tokNat : Token → Nat
  | .nat n => n
  | _ => 0

/-- the C10 precondition, as a token-wise bound: every field of the stream,
read as a `children_count`, stays within the `max_children + 1` slot
capacity allocated by `new_node`. -/
def goodStream (k : Nat) (s : TokStream) : Prop :=
  ∀ t ∈ s.tokens, tokNat t ≤ k + 1

/-- extraction only ever drops a prefix of the token list. -/
theorem readNat_drop (s : TokStream) :
    ∃ j, (readNat s).2.tokens = s.tokens.drop j := by
  rw [readNat]
  by_cases hf : s.failed
  · exact ⟨0, by simp [hf]⟩
  · simp only [hf, if_false, reduceIte]
    cases hs : s.tokens with
    | nil => exact ⟨0, rfl⟩
    | cons t rest =>
      cases t with
      | nat n => exact ⟨1, by simp⟩
      | num q => exact ⟨0, by simp⟩
      | junk ss => exact ⟨0, by simp⟩

/-- same for the float extraction. -/
theorem readQ_drop (s : TokStream) :
    ∃ j, (readQ s).2.tokens = s.tokens.drop j := by
  rw [readQ]
  by_cases hf : s.failed
  · exact ⟨0, by simp [hf]⟩
  · simp only [hf, if_false, reduceIte]
    cases hs : s.tokens with
    | nil => exact ⟨0, rfl⟩
    | cons t rest =>
      cases t with
      | nat n => exact ⟨1, by simp⟩
      | num q => exact ⟨1, by simp⟩
      | junk ss => exact ⟨0, by simp⟩

/-- same for the coordinate loop. -/
theorem readVec_drop (dim : Nat) :
    ∀ s, ∃ j, (readVec dim s).2.tokens = s.tokens.drop j := by
  induction dim with
  | zero => intro s; exact ⟨0, rfl⟩
  | succ dm ih =>
    intro s
    rw [readVec]
    obtain ⟨j1, hj1⟩ := readQ_drop s
    obtain ⟨j2, hj2⟩ := ih (readQ s).2
    refine ⟨j1 + j2, ?_⟩
    simp only []
    rw [hj2, hj1, List.drop_drop]

/-- a successful (non-zero) count extraction consumed a token. -/
theorem readNat_consumed (s : TokStream) (h : (readNat s).1 ≠ 0) :
    (readNat s).2.tokens.length < s.tokens.length := by
  rw [readNat] at h ⊢
  by_cases hf : s.failed
  · simp [hf] at h
  · cases hs : s.tokens with
    | nil => rw [hs] at h; simp [hf] at h
    | cons t rest =>
      cases t with
      | nat n => simp [hf]
      | num q => rw [hs] at h; simp [hf] at h
      | junk ss => rw [hs] at h; simp [hf] at h

/-- on a good stream the extracted count respects the slot capacity. -/
theorem readNat_bound (k : Nat) (s : TokStream) (hgood : goodStream k s) :
    (readNat s).1 ≤ k + 1 := by
  rw [readNat]
  by_cases hf : s.failed
  · simp [hf]
  · simp only [hf, if_false, reduceIte]
    cases hs : s.tokens with
    | nil => simp
    | cons t rest =>
      cases t with
      | nat n =>
        simp only []
        have := hgood (.nat n) (by rw [hs]; exact List.mem_cons_self _ _)
        rw [tokNat] at this
        exact this
      | num q => simp
      | junk ss => simp

/-- goodness survives dropping consumed tokens (and any fail flag). -/
theorem goodStream_drop (k : Nat) (s : TokStream) (hgood : goodStream k s)
    (l : List Token) (j : Nat) (b : Bool) (hl : l = s.tokens.drop j) :
    goodStream k ⟨l, b⟩ := by
  intro t ht
  rw [hl] at ht
  exact hgood t (List.mem_of_mem_drop ht)

/-- deserialisation only ever drops a prefix of the token list. -/
theorem deserialise_drop (k d : Nat) :
    ∀ fuel, (∀ s n s', deserialise k d fuel s = some (n, s') →
        ∃ j, s'.tokens = s.tokens.drop j) ∧
      (∀ cnt s ns s', deserialiseChildren k d fuel cnt s = some (ns, s') →
        ∃ j, s'.tokens = s.tokens.drop j) := by
  intro fuel
  induction fuel with
  | zero =>
    constructor
    · intro s n s' heq
      rw [deserialise] at heq
      simp at heq
    · intro cnt s ns s' heq
      cases cnt with
      | zero =>
        rw [deserialiseChildren] at heq
        simp at heq
        exact ⟨0, by rw [← heq.2, List.drop_zero]⟩
      | succ c =>
        rw [deserialiseChildren] at heq
        rw [deserialise] at heq
        simp at heq
  | succ fl ih =>
    have hnode : ∀ s n s', deserialise k d (fl + 1) s = some (n, s') →
        ∃ j, s'.tokens = s.tokens.drop j := by
      intro s n s' heq
      rw [deserialise] at heq
      simp only [] at heq
      obtain ⟨j1, hj1⟩ := readNat_drop s
      obtain ⟨j2, hj2⟩ := readNat_drop (readNat s).2
      obtain ⟨j3, hj3⟩ := readVec_drop d (readNat (readNat s).2).2
      by_cases h0 : (readNat s).1 = 0
      · simp only [h0, if_true, reduceIte] at heq
        simp at heq
        refine ⟨j3 + (j2 + j1), ?_⟩
        rw [← heq.2, hj3, hj2, hj1, List.drop_drop, List.drop_drop]
        congr 1
        omega
      · simp only [h0, reduceIte] at heq
        by_cases hb : (readNat s).1 > k + 1
        · simp [hb] at heq
        · simp only [hb, reduceIte] at heq
          cases h2 : deserialiseChildren k d fl (readNat s).1
              (readVec d (readNat (readNat s).2).2).2 with
          | none => rw [h2] at heq; simp at heq
          | some cs =>
            rw [h2] at heq
            simp at heq
            obtain ⟨j4, hj4⟩ := ih.2 (readNat s).1 _ cs.1 cs.2 (by rw [h2])
            refine ⟨j4 + (j3 + (j2 + j1)), ?_⟩
            rw [← heq.2, hj4, hj3, hj2, hj1, List.drop_drop, List.drop_drop,
              List.drop_drop]
            congr 1
            omega
    have hchild : ∀ cnt s ns s',
        deserialiseChildren k d (fl + 1) cnt s = some (ns, s') →
        ∃ j, s'.tokens = s.tokens.drop j := by
      intro cnt
      induction cnt with
      | zero =>
        intro s ns s' heq
        rw [deserialiseChildren] at heq
        simp at heq
        exact ⟨0, by rw [← heq.2, List.drop_zero]⟩
      | succ c ihc =>
        intro s ns s' heq
        rw [deserialiseChildren] at heq
        cases h1 : deserialise k d (fl + 1) s with
        | none => rw [h1] at heq; simp at heq
        | some r =>
          rw [h1] at heq
          simp only [] at heq
          cases h2 : deserialiseChildren k d (fl + 1) c r.2 with
          | none => rw [h2] at heq; simp at heq
          | some rs =>
            rw [h2] at heq
            simp at heq
            obtain ⟨j1, hj1⟩ := hnode s r.1 r.2 (by rw [h1])
            obtain ⟨j2, hj2⟩ := ihc r.2 rs.1 rs.2 (by rw [h2])
            refine ⟨j2 + j1, ?_⟩
            rw [← heq.2, hj2, hj1, List.drop_drop]
            congr 1
            omega
    exact ⟨hnode, hchild⟩

/-- totality of deserialisation on bounded-count streams: with fuel above
the stream length the fuel branch is unreachable, and the only remaining
`none` source — the out-of-range `children_count` — is excluded by the
bound, so a tree is always constructed (malformed or truncated fields
merely read as zero). -/
theorem deser_total (k d : Nat) :
    ∀ fuel, (∀ s, goodStream k s → s.tokens.length < fuel →
        (deserialise k d fuel s).isSome) ∧
      (∀ cnt s, goodStream k s → s.tokens.length < fuel →
        (deserialiseChildren k d fuel cnt s).isSome) := by
  intro fuel
  induction fuel with
  | zero =>
    constructor
    · intro s _ hlen
      exact absurd hlen (Nat.not_lt_zero _)
    · intro cnt s _ hlen
      exact absurd hlen (Nat.not_lt_zero _)
  | succ fl ih =>
    have hnode : ∀ s, goodStream k s → s.tokens.length < fl + 1 →
        (deserialise k d (fl + 1) s).isSome := by
      intro s hg hlen
      rw [deserialise]
      by_cases h0 : (readNat s).1 = 0
      · simp [h0]
      · have hb : ¬ (readNat s).1 > k + 1 := by
          have := readNat_bound k s hg
          omega
        simp only [h0, hb, reduceIte]
        have hcons := readNat_consumed s h0
        obtain ⟨j1, hj1⟩ := readNat_drop s
        obtain ⟨j2, hj2⟩ := readNat_drop (readNat s).2
        obtain ⟨j3, hj3⟩ := readVec_drop d (readNat (readNat s).2).2
        have e3 : (readVec d (readNat (readNat s).2).2).2.tokens.length
            ≤ (readNat (readNat s).2).2.tokens.length := by
          rw [hj3, List.length_drop]; omega
        have e2 : (readNat (readNat s).2).2.tokens.length
            ≤ (readNat s).2.tokens.length := by
          rw [hj2, List.length_drop]; omega
        have hlen3 :
            (readVec d (readNat (readNat s).2).2).2.tokens.length < fl := by
          omega
        have hg1 : goodStream k (readNat s).2 :=
          goodStream_drop k s hg (readNat s).2.tokens j1 (readNat s).2.failed
            hj1
        have hg2 : goodStream k (readNat (readNat s).2).2 :=
          goodStream_drop k (readNat s).2 hg1 (readNat (readNat s).2).2.tokens
            j2 (readNat (readNat s).2).2.failed hj2
        have hg3 : goodStream k (readVec d (readNat (readNat s).2).2).2 :=
          goodStream_drop k (readNat (readNat s).2).2 hg2
            (readVec d (readNat (readNat s).2).2).2.tokens j3
            (readVec d (readNat (readNat s).2).2).2.failed hj3
        have hc := ih.2 (readNat s).1 (readVec d (readNat (readNat s).2).2).2
          hg3 hlen3
        cases h2 : deserialiseChildren k d fl (readNat s).1
            (readVec d (readNat (readNat s).2).2).2 with
        | none => rw [h2] at hc; simp at hc
        | some cs => simp
    have hchild : ∀ cnt s, goodStream k s → s.tokens.length < fl + 1 →
        (deserialiseChildren k d (fl + 1) cnt s).isSome := by
      intro cnt
      induction cnt with
      | zero =>
        intro s _ _
        rw [deserialiseChildren]
        simp
      | succ c ihc =>
        intro s hg hlen
        rw [deserialiseChildren]
        have h1 := hnode s hg hlen
        cases hd : deserialise k d (fl + 1) s with
        | none => rw [hd] at h1; simp at h1
        | some r =>
          obtain ⟨j, hj⟩ :=
            (deserialise_drop k d (fl + 1)).1 s r.1 r.2 (by rw [hd])
          have hgr : goodStream k r.2 :=
            goodStream_drop k s hg r.2.tokens j r.2.failed hj
          have hlr : r.2.tokens.length < fl + 1 := by
            rw [hj, List.length_drop]; omega
          have h2 := ihc r.2 hgr hlr
          cases h2' : deserialiseChildren k d (fl + 1) c r.2 with
          | none => rw [h2'] at h2; simp at h2
          | some rs => simp [h2']
    exact ⟨hnode, hchild⟩

/-- C9 (amended): deserialisation never reports a parse error to the
caller.  Every istream extraction failure (malformed token, wrong field
count, truncated stream) silently yields 0 and the build continues; on any
stream whose count fields respect the slot capacity, k_tree::deserialise
always constructs and returns a tree. -/
theorem ktree_deserialise_no_parse_error (k d : Nat) (s : TokStream)
    (hgood : goodStream k s) : (ktreeDeserialise k d s).isSome := by
  rw [ktreeDeserialise]
  exact (deser_total k d (s.tokens.length + 1)).1 s hgood (by omega)

/-- C9 counterexample: a stream consisting of a single malformed token is
deserialised without any error — the failed extraction reads the
children_count as 0 and a default zero-centroid leaf is silently
constructed, the stream's fail flag being the only trace. -/
theorem ktree_deserialise_malformed_silent :
    ktreeDeserialise 2 2 ⟨[Token.junk "x"], false⟩ =
      some (Node.leaf [0, 0], ⟨[Token.junk "x"], true⟩) := by
  simp [ktreeDeserialise, deserialise, readNat, readVec, readQ]

/-- C9 witness: the no-parse-error theorem applied to the malformed
single-token stream. -/
theorem ktree_deserialise_no_parse_error_witness :
    goodStream 2 ⟨[Token.junk "x"], false⟩ ∧
      (ktreeDeserialise 2 2 ⟨[Token.junk "x"], false⟩).isSome :=
  ⟨by intro t ht; rw [List.mem_singleton] at ht; subst ht; decide,
    ktree_deserialise_no_parse_error 2 2 _
      (by intro t ht; rw [List.mem_singleton] at ht; subst ht; decide)⟩

/-- C10: node::deserialise trusts the children_count token: a stream whose
top-level record carries count 4 with max_children = 2 drives the child
loop past the 3-slot array (the totalized out-of-bounds branch, `none`, is
reached), and conversely any stream on which deserialisation hits that
branch must violate the unstated precondition that every count field is at
most max_children + 1. -/
theorem deserialise_unchecked_count :
    ktreeDeserialise 2 1 ⟨[Token.nat 4, Token.nat 1, Token.num 5],
        false⟩ = none ∧
      ∀ k d s, ktreeDeserialise k d s = none → ¬ goodStream k s := by
  constructor
  · simp [ktreeDeserialise, deserialise, readNat]
  · intro k d s hnone hg
    have h := (deser_total k d (s.tokens.length + 1)).1 s hg (by omega)
    rw [ktreeDeserialise] at hnone
    rw [hnone] at h
    simp at h

/-- C10 witness: the oversized-count stream itself discharges the
hypothesis of the converse direction. -/
theorem deserialise_unchecked_count_witness :
    ktreeDeserialise 2 1 ⟨[Token.nat 4, Token.nat 1, Token.num 5],
        false⟩ = none ∧
      ¬ goodStream 2 ⟨[Token.nat 4, Token.nat 1, Token.num 5], false⟩ :=
  ⟨deserialise_unchecked_count.1,
    deserialise_unchecked_count.2 2 1 _ deserialise_unchecked_count.1⟩

end KTree
